import Mathlib

/-!
# Verification of the b3pulse ingestion pipeline

A shallow embedding of the b3pulse ingestion core:

* the Brazilian business-day calendar (`internal/ingestion/holidays.go`),
* the strict/tolerant file parser (`parseAndPersistFile` / `recordToTrade`
  in `internal/ingestion/ingestion.go`),
* the directory orchestrator (`ProcessDirectory` in
  `internal/ingestion/ingestion_process.go`).

Dates are modelled as day ordinals (`Int`, days since 1970-01-01), which is
the date content of Go's `time.Time` once the time of day is stripped
(`truncateToDate`).  `daysFromCivil` and `civilFromDays` convert between a
day ordinal and the proleptic Gregorian triple (year, month, day); they model
the date arithmetic of Go's `time` package (`time.Date`, `Date()`,
`AddDate`).  Go's truncating integer division and remainder, used by
`easterSunday`, are modelled by `Int.tdiv` / `Int.tmod`.
-/

namespace B3

/-- Day ordinal of a Gregorian (year, month, day), days since 1970-01-01.
Models Go `time.Date(y, m, d, 0, 0, 0, 0, loc)` up to the choice of epoch;
out-of-range days are normalised by continuing into the following months,
exactly as `time.Date` does.  Closed form following the standard
days-from-civil algorithm, with floor semantics (`/` and `%` on `Int` are
Euclidean, and all divisors here are positive). -/
def daysFromCivil (y m d : Int) : Int :=
  let y2 := y - (if m ≤ 2 then 1 else 0)
  let era := y2 / 400
  let yoe := y2 - era * 400
  let mp := (m + 9) % 12
  let doy := (153 * mp + 2) / 5 + d - 1
  let doe := yoe * 365 + yoe / 4 - yoe / 100 + doy
  era * 146097 + doe - 719468

/-- Ordinal of January 1 of year `y`. -/
def jan1 (y : Int) : Int := daysFromCivil y 1 1

/-- Year search: starting from a year `y` with `jan1 y ≤ z`, walk forward
while the next year still starts on or before `z`. -/
def findYear (z : Int) : Nat → Int → Int
  | 0, y => y
  | steps + 1, y => if jan1 (y + 1) ≤ z then findYear z steps (y + 1) else y

/-- The Gregorian year containing day ordinal `z`. -/
def yearOf (z : Int) : Int :=
  findYear z 402 ((z + 719468) / 146097 * 400 - 1)

/-- Month search within year `y`. -/
def findMonth (z y : Int) : Nat → Int → Int
  | 0, m => m
  | steps + 1, m =>
    if m < 12 ∧ daysFromCivil y (m + 1) 1 ≤ z then findMonth z y steps (m + 1)
    else m

/-- The month (1..12) of day ordinal `z`. -/
def monthOf (z : Int) : Int := findMonth z (yearOf z) 11 1

/-- The day of month (1..31) of day ordinal `z`. -/
def dayOf (z : Int) : Int := z - daysFromCivil (yearOf z) (monthOf z) 1 + 1

/-- Gregorian (year, month, day) of a day ordinal; models `t.Date()` in Go. -/
def civilFromDays (z : Int) : Int × Int × Int := (yearOf z, monthOf z, dayOf z)

/-- Day of week of a day ordinal, Go numbering (Sunday = 0 .. Saturday = 6);
1970-01-01 was a Thursday (= 4).  Models `t.Weekday()`. -/
def weekdayOf (z : Int) : Int := (z + 4) % 7

/-- Number of days in a month, Gregorian rules; this is the table Go's
`time` package uses to validate parsed dates. -/
def goDaysIn (y m : Int) : Int :=
  if m = 2 then (if y % 4 = 0 ∧ (y % 100 ≠ 0 ∨ y % 400 = 0) then 29 else 28)
  else if m = 4 ∨ m = 6 ∨ m = 9 ∨ m = 11 then 30
  else 31

/-- Start of the month after (y, m) for 1 ≤ m ≤ 12. -/
def nextMonthStart (y m : Int) : Int :=
  if m = 12 then jan1 (y + 1) else daysFromCivil y (m + 1) 1

/-! ## The Brazilian business-day calendar (`holidays.go`) -/

/-- The eight fixed national holidays of `isBusinessDayBR`, as (month, day)
pairs; the Go code keys them by the `"01-02"` (month-day) formatting of the
date. -/
def fixedHolidaysBR : List (Int × Int) :=
  [(1, 1), (4, 21), (5, 1), (9, 7), (10, 12), (11, 2), (11, 15), (12, 25)]

/-- The locals of `easterSunday` in `holidays.go` (Meeus/Jones/Butcher),
one definition per Go local, in source order.  Go's `/` and `%` on `int`
truncate toward zero, so they are modelled by `Int.tdiv` / `Int.tmod`. -/
def easterA (year : Int) : Int := year.tmod 19

/-- `b := year / 100` -/
def easterB (year : Int) : Int := year.tdiv 100

/-- `c := year % 100` -/
def easterC (year : Int) : Int := year.tmod 100

/-- `d := b / 4` -/
def easterD (year : Int) : Int := (easterB year).tdiv 4

/-- `e := b % 4` -/
def easterE (year : Int) : Int := (easterB year).tmod 4

/-- `f := (b + 8) / 25` -/
def easterF (year : Int) : Int := (easterB year + 8).tdiv 25

/-- `g := (b - f + 1) / 3` -/
def easterG (year : Int) : Int := (easterB year - easterF year + 1).tdiv 3

/-- `h := (19*a + b - d - g + 15) % 30` -/
def easterH (year : Int) : Int :=
  (19 * easterA year + easterB year - easterD year - easterG year + 15).tmod 30

/-- `i := c / 4` -/
def easterI (year : Int) : Int := (easterC year).tdiv 4

/-- `k := c % 4` -/
def easterK (year : Int) : Int := (easterC year).tmod 4

/-- `l := (32 + 2*e + 2*i - h - k) % 7` -/
def easterL (year : Int) : Int :=
  (32 + 2 * easterE year + 2 * easterI year - easterH year - easterK year).tmod 7

/-- `m := (a + 11*h + 22*l) / 451` -/
def easterM (year : Int) : Int :=
  (easterA year + 11 * easterH year + 22 * easterL year).tdiv 451

/-- Easter Sunday (month, day) for a year:
`month := (h + l - 7*m + 114) / 31` and `day := ((h + l - 7*m + 114) % 31) + 1`. -/
def easterMD (year : Int) : Int × Int :=
  ((easterH year + easterL year - 7 * easterM year + 114).tdiv 31,
    (easterH year + easterL year - 7 * easterM year + 114).tmod 31 + 1)

/-- Day ordinal of Easter Sunday for a year: `easterSunday` returns
`time.Date(year, month, day, 0, 0, 0, 0, time.Local)`, i.e. the (normalised)
civil date as a day ordinal. -/
def easterOrd (year : Int) : Int :=
  daysFromCivil year (easterMD year).1 (easterMD year).2

/-- `isBusinessDayBR` from `holidays.go`: not a weekend, not a fixed national
holiday, not one of the four movable holidays derived from Easter
(Carnival Monday/Tuesday at Easter−48/−47, Good Friday at Easter−2,
Corpus Christi at Easter+60). -/
def isBusinessDayBR (z : Int) : Bool :=
  if weekdayOf z = 6 ∨ weekdayOf z = 0 then false
  else
    let c := civilFromDays z
    if fixedHolidaysBR.contains (c.2.1, c.2.2) then false
    else
      let e := easterOrd c.1
      if z = e - 48 ∨ z = e - 47 ∨ z = e - 2 ∨ z = e + 60 then false
      else true

/-- The walking loop of `LastNBusinessDays`: walk backward one day at a time,
collecting business days until `n` are found.  The Go loop has no fuel; the
fuel only bounds the recursion depth, and `lastNBusinessDaysAux_spec` below
proves that with fuel `600 * n` the loop always finds its `n` days, so the
fuelled function agrees with the unbounded Go loop. -/
def lastNBusinessDaysAux : Nat → Nat → Int → List Int
  | 0, _, _ => []
  | _ + 1, 0, _ => []
  | fuel + 1, n + 1, z =>
    if isBusinessDayBR z then z :: lastNBusinessDaysAux fuel n (z - 1)
    else lastNBusinessDaysAux fuel (n + 1) (z - 1)

/-- `LastNBusinessDays(n, from)` from `holidays.go`, on the day ordinal of
`truncateToDate(from)`. -/
def lastNBusinessDays (n : Nat) (z : Int) : List Int :=
  lastNBusinessDaysAux (600 * n) n z

/-! ## The trade row model (`models/trade.go` and `recordToTrade`)

`models.Trade` represents absent dates/times by the zero `time.Time`; the
model uses `Option` (`none` = Go zero value).  `TradePrice` is a `float64` in
Go; the model uses exact rationals, covering the decimal grammar of
`strconv.ParseFloat` (the verified claims do not depend on float rounding,
and the special `Inf`/`NaN`/hexadecimal forms are outside the file format).
`ClosingTime` keeps only the clock part (hour, minute, second), exactly what
the Go code stores (`time.Date(0, 1, 1, h, m, s, 0, UTC)`). -/
structure Trade where
  ReferenceDate : Option Int
  InstrumentCode : String
  UpdateAction : String
  TradePrice : ℚ
  TradeQuantity : Int
  ClosingTime : Option (Int × Int × Int)
  TradeIdentifierCode : String
  SessionType : String
  TradeDate : Option Int
  BuyerParticipantCode : String
  SellerParticipantCode : String
deriving DecidableEq

/-- Numeric value of a digit character. -/
def digitVal (c : Char) : Int := (c.toNat : Int) - 48

/-- Value of a digit string, most significant first. -/
def digitsToInt (cs : List Char) : Int :=
  cs.foldl (fun a c => a * 10 + digitVal c) 0

/-- Go `time.Parse("2006-01-02", s)`: exactly 4-2-2 digits separated by
dashes, with month and day range-checked against the Gregorian month
lengths; the result is the day ordinal (the parsed time is midnight UTC). -/
def parseDateISO (s : String) : Option Int :=
  match s.toList with
  | [y1, y2, y3, y4, '-', m1, m2, '-', d1, d2] =>
    if ([y1, y2, y3, y4, m1, m2, d1, d2].all Char.isDigit) then
      let y := digitsToInt [y1, y2, y3, y4]
      let m := digitsToInt [m1, m2]
      let d := digitsToInt [d1, d2]
      if 1 ≤ m ∧ m ≤ 12 ∧ 1 ≤ d ∧ d ≤ goDaysIn y m then some (daysFromCivil y m d)
      else none
    else none
  | _ => none

/-- Go `time.Parse("02-01-2006", s)` (the `DD-MM-YYYY` filename layout). -/
def parseDateBR (s : String) : Option Int :=
  match s.toList with
  | [d1, d2, '-', m1, m2, '-', y1, y2, y3, y4] =>
    if ([d1, d2, m1, m2, y1, y2, y3, y4].all Char.isDigit) then
      let y := digitsToInt [y1, y2, y3, y4]
      let m := digitsToInt [m1, m2]
      let d := digitsToInt [d1, d2]
      if 1 ≤ m ∧ m ≤ 12 ∧ 1 ≤ d ∧ d ≤ goDaysIn y m then some (daysFromCivil y m d)
      else none
    else none
  | _ => none

/-- Go `time.Parse("150405", s)` on a 6-character string: hours, minutes,
seconds, each two digits and range-checked. -/
def parseHMS (cs : List Char) : Option (Int × Int × Int) :=
  match cs with
  | [h1, h2, m1, m2, s1, s2] =>
    if ([h1, h2, m1, m2, s1, s2].all Char.isDigit) then
      let h := digitsToInt [h1, h2]
      let m := digitsToInt [m1, m2]
      let s := digitsToInt [s1, s2]
      if h ≤ 23 ∧ m ≤ 59 ∧ s ≤ 59 then some (h, m, s) else none
    else none
  | _ => none

/-- Go `strconv.ParseInt(s, 10, 64)`: optional sign, one or more digits,
value within the signed 64-bit range. -/
def parseInt64 (s : String) : Option Int :=
  let split : Int × List Char :=
    match s.toList with
    | '+' :: r => (1, r)
    | '-' :: r => (-1, r)
    | r => (1, r)
  let ds := split.2
  if ds ≠ [] ∧ ds.all Char.isDigit then
    let v := split.1 * digitsToInt ds
    if -(2 ^ 63) ≤ v ∧ v ≤ 2 ^ 63 - 1 then some v else none
  else none

/-- Mantissa of a decimal float: `digits`, `digits.`, `digits.digits` or
`.digits`; returns its exact value and the remaining input. -/
def parseMantissa (cs : List Char) : Option (ℚ × List Char) :=
  let ip := cs.takeWhile Char.isDigit
  let r1 := cs.dropWhile Char.isDigit
  match r1 with
  | '.' :: r2 =>
    let fp := r2.takeWhile Char.isDigit
    let r3 := r2.dropWhile Char.isDigit
    if ip = [] ∧ fp = [] then none
    else some ((digitsToInt ip : ℚ) + (digitsToInt fp : ℚ) / 10 ^ fp.length, r3)
  | _ => if ip = [] then none else some ((digitsToInt ip : ℚ), r1)

/-- Go `strconv.ParseFloat(s, 64)` restricted to finite decimal notation
(optional sign, mantissa, optional decimal exponent), with the exact rational
value standing in for the rounded float64. -/
def parseFloatDec (s : String) : Option ℚ :=
  let split : ℚ × List Char :=
    match s.toList with
    | '+' :: r => (1, r)
    | '-' :: r => (-1, r)
    | r => (1, r)
  match parseMantissa split.2 with
  | none => none
  | some (man, rest) =>
    match rest with
    | [] => some (split.1 * man)
    | e :: r1 =>
      if e = 'e' ∨ e = 'E' then
        let esplit : Int × List Char :=
          match r1 with
          | '+' :: r => (1, r)
          | '-' :: r => (-1, r)
          | r => (1, r)
        if esplit.2 ≠ [] ∧ esplit.2.all Char.isDigit then
          some (split.1 * man * 10 ^ (esplit.1 * digitsToInt esplit.2))
        else none
      else none

/-- `strings.ReplaceAll(s, ",", ".")`. -/
def dotify (s : String) : String :=
  String.mk (s.toList.map fun c => if c = ',' then '.' else c)

/-- The whitespace set of Go `unicode.IsSpace`, restricted to ASCII (the
only whitespace the semicolon-separated format can carry between cells). -/
def isSpaceGo (c : Char) : Bool :=
  c = ' ' ∨ c = '\t' ∨ c = '\n' ∨ c = '\r' ∨ c = '\x0b' ∨ c = '\x0c'

/-- `strings.TrimSpace`. -/
def trimGo (s : String) : String :=
  String.mk (((s.toList.dropWhile isSpaceGo).reverse.dropWhile isSpaceGo).reverse)

/-- The per-field failures of `recordToTrade`, in source order. -/
inductive RowErr
  | refDate
  | price
  | quantity
  | closingLen
  | closing
  | tradeDate
deriving DecidableEq

deriving instance DecidableEq for Except

/-- `recordToTrade` from `ingestion.go`: strict about types/format but
tolerant of empty cells (empty numeric cells become zero, empty date/time
cells become the zero value, string cells are trimmed).  Fields are checked
in source order, so the first malformed cell determines the error.
Cells are accessed with `getD` (the caller has already checked the record
has exactly 11 cells).  Go checks `len(s) < 6` on the closing-time cell in
bytes and slices `s[:6]` in bytes; the model works in characters, which
coincides on the digit strings the format carries. -/
def recordToTrade (rec : List String) : Except RowErr Trade := do
  let s0 := trimGo (rec.getD 0 "")
  let ReferenceDate ← if s0 = "" then pure none else
    match parseDateISO s0 with
    | some d => pure (some d)
    | none => throw RowErr.refDate
  let InstrumentCode := trimGo (rec.getD 1 "")
  let UpdateAction := trimGo (rec.getD 2 "")
  let s3 := trimGo (rec.getD 3 "")
  let TradePrice ← if s3 = "" then pure 0 else
    match parseFloatDec (dotify s3) with
    | some v => pure v
    | none => throw RowErr.price
  let s4 := trimGo (rec.getD 4 "")
  let TradeQuantity ← if s4 = "" then pure 0 else
    match parseInt64 s4 with
    | some v => pure v
    | none => throw RowErr.quantity
  let s5 := trimGo (rec.getD 5 "")
  let ClosingTime ← if s5 = "" then pure none else
    if s5.length < 6 then throw RowErr.closingLen else
    match parseHMS (s5.toList.take 6) with
    | some t => pure (some t)
    | none => throw RowErr.closing
  let TradeIdentifierCode := trimGo (rec.getD 6 "")
  let SessionType := trimGo (rec.getD 7 "")
  let s8 := trimGo (rec.getD 8 "")
  let TradeDate ← if s8 = "" then pure none else
    match parseDateISO s8 with
    | some d => pure (some d)
    | none => throw RowErr.tradeDate
  let BuyerParticipantCode := trimGo (rec.getD 9 "")
  let SellerParticipantCode := trimGo (rec.getD 10 "")
  pure { ReferenceDate, InstrumentCode, UpdateAction, TradePrice, TradeQuantity,
         ClosingTime, TradeIdentifierCode, SessionType, TradeDate,
         BuyerParticipantCode, SellerParticipantCode }

/-! ## The file parser (`parseAndPersistFile` in `ingestion.go`)

The Go function reads a CSV stream (semicolon-separated, lazy quotes) and
talks to a context and a repository.  The model takes the file as its decoded
record stream (`List (List String)`, header first), the cancellation signal
as the predicate `cancel : Nat → Bool` giving the state of `ctx.Done()` at
the i-th per-row check, and the repository as `insertOk : Nat → Bool` giving
the outcome of the k-th `InsertTradesBatch` call.  Besides Go's return value
`(rowCount, error)` the model emits the trace of observable effects:
per-row cancellation checks, row reads (with their 1-based line number, the
header being line 1), and insert calls with their payload. -/
inductive PEvent
  | check (canceled : Bool)
  | readRow (line : Nat)
  | insertCall (trades : List Trade) (ok : Bool)
deriving DecidableEq

/-- The failure cases of `parseAndPersistFile`, in source order. -/
inductive ParseErr
  | readHeader
  | headerLength (got : Nat)
  | headerCol (col : Nat)
  | columnCount (line got : Nat)
  | rowFormat (line : Nat) (e : RowErr)
  | flushBatch (line : Nat)
  | finalFlush
  | canceled
deriving DecidableEq

/-- The expected header of a B3 "Negócios à Vista" file (`expectedHeaders`). -/
def expectedHeaders : List String :=
  ["DataReferencia", "CodigoInstrumento", "AcaoAtualizacao", "PrecoNegocio",
   "QuantidadeNegociada", "HoraFechamento", "CodigoIdentificadorNegocio",
   "TipoSessaoPregao", "DataNegocio", "CodigoParticipanteComprador",
   "CodigoParticipanteVendedor"]

/-- First header column (0-based) whose trimmed cell differs from the
expected name, mirroring the `for i, h := range header` loop. -/
def firstBadCol : List String → List String → Nat → Option Nat
  | h :: hs, e :: es, i =>
    if trimGo h = e then firstBadCol hs es (i + 1) else some i
  | _, _, _ => none

/-- The per-row loop of `parseAndPersistFile`: check the cancellation signal,
read a record, enforce the 11-column shape, convert it, flush full batches;
a final partial flush happens at end of input.  State: remaining rows,
buffer, row count, last line number, check index, insert-call index. -/
def parseLoop (cancel insertOk : Nat → Bool) (batch : Nat) :
    List (List String) → List Trade → Nat → Nat → Nat → Nat →
      List PEvent × Nat × Option ParseErr
  | rows, buf, total, line, ci, ii =>
    if cancel ci then ([.check true], 0, some .canceled)
    else
      match rows with
      | [] =>
        if buf.isEmpty then ([.check false], total, none)
        else if insertOk ii then ([.check false, .insertCall buf true], total, none)
        else ([.check false, .insertCall buf false], 0, some .finalFlush)
      | rec :: rest =>
        if rec.length ≠ 11 then
          ([.check false, .readRow (line + 1)], 0,
            some (.columnCount (line + 1) rec.length))
        else
          match recordToTrade rec with
          | .error e =>
            ([.check false, .readRow (line + 1)], 0, some (.rowFormat (line + 1) e))
          | .ok tr =>
            let buf2 := buf ++ [tr]
            if batch ≤ buf2.length then
              if insertOk ii then
                let r := parseLoop cancel insertOk batch rest [] (total + 1)
                  (line + 1) (ci + 1) (ii + 1)
                (.check false :: .readRow (line + 1) :: .insertCall buf2 true :: r.1,
                  r.2)
              else
                ([.check false, .readRow (line + 1), .insertCall buf2 false], 0,
                  some (.flushBatch (line + 1)))
            else
              let r := parseLoop cancel insertOk batch rest buf2 (total + 1)
                (line + 1) (ci + 1) ii
              (.check false :: .readRow (line + 1) :: r.1, r.2)

/-- `parseAndPersistFile` past `os.Open`: strict header validation, then the
row loop starting at line number 1 (the header line), with empty buffer and
counters at zero. -/
def parseFile (cancel insertOk : Nat → Bool) (content : List (List String))
    (batch : Nat) : List PEvent × Nat × Option ParseErr :=
  match content with
  | [] => ([], 0, some .readHeader)
  | header :: rows =>
    if header.length ≠ 11 then ([], 0, some (.headerLength header.length))
    else
      match firstBadCol header expectedHeaders 0 with
      | some i => ([], 0, some (.headerCol (i + 1)))
      | none => parseLoop cancel insertOk batch rows [] 0 1 0 0

/-- The insert payloads of a trace, in order. -/
def insertBatches (evs : List PEvent) : List (List Trade) :=
  evs.filterMap fun e =>
    match e with
    | .insertCall t _ => some t
    | _ => none

/-- Number of cancellation checks in a trace. -/
def countChecks (evs : List PEvent) : Nat :=
  (evs.filter fun e =>
    match e with
    | .check _ => true
    | _ => false).length

/-- Number of row reads in a trace. -/
def countReads (evs : List PEvent) : Nat :=
  (evs.filter fun e =>
    match e with
    | .readRow _ => true
    | _ => false).length

/-- Splitting a list into batches of `b` (`b ≥ 1`), last one possibly
shorter: the sequence of flushes the batching contract describes. -/
def chunkList (b : Nat) : List Trade → List (List Trade)
  | [] => []
  | x :: xs => (x :: xs).take (max b 1) :: chunkList b (xs.drop (max b 1 - 1))
termination_by l => l.length
decreasing_by
  simp only [List.length_cons]
  have := List.length_drop (max b 1 - 1) xs
  omega

/-! ## The orchestrator (`ProcessDirectory` in `ingestion_process.go`)

`ProcessDirectory` lists the expected files for the last `nDays` business
days, validates their presence, and fans workers out over them with a
semaphore of width `parallel`.  The model abstracts the file system as
`dirListing : String → Option (List (List String))` (base filename to decoded
record stream; `none` = `os.IsNotExist`), and the repository as an oracle
giving the outcome of every call.  Workers run sequentially in the model —
each worker only touches its own file and its own date, and the verified
claims are insensitive to interleaving; the first failing worker's error is
the error `errgroup.Wait` reports. -/

/-- `defaultBatchSize = 5000`. -/
def defaultBatchSize : Nat := 5000

/-- Character of a decimal digit value. -/
def digitChar (n : Int) : Char := Char.ofNat (48 + n.toNat)

/-- Zero-padded 2-digit rendering (Go layout `02` / `01`). -/
def pad2 (n : Int) : List Char := [digitChar ((n / 10) % 10), digitChar (n % 10)]

/-- Zero-padded 4-digit rendering (Go layout `2006`). -/
def pad4 (n : Int) : List Char :=
  [digitChar ((n / 1000) % 10), digitChar ((n / 100) % 10),
   digitChar ((n / 10) % 10), digitChar (n % 10)]

/-- `fileSuffix = "_NEGOCIOSAVISTA.txt"`. -/
def fileSuffixChars : List Char := "_NEGOCIOSAVISTA.txt".toList

/-- `d.Format("02-01-2006") + fileSuffix`: the expected base filename of a
business day. -/
def fileNameOf (d : Int) : String :=
  String.mk (pad2 (dayOf d) ++ '-' :: pad2 (monthOf d) ++ '-' :: pad4 (yearOf d)
    ++ fileSuffixChars)

/-- `strings.TrimSuffix(base, fileSuffix)` followed by
`time.Parse("02-01-2006", datePart)`: the business day a worker derives from
its filename. -/
def parseFileNameDate (name : String) : Option Int :=
  let cs := name.toList
  let dp :=
    if cs.length ≥ 19 ∧ cs.drop (cs.length - 19) = fileSuffixChars then
      cs.take (cs.length - 19)
    else cs
  parseDateBR (String.mk dp)

/-- Outcomes of every repository call the orchestrator can make:
`HasIngestionForDate` (per date; `Except.error` = query failure),
`DeleteTradesByDate` (per date), `InsertTradesBatch` (per file and call
index), `UpsertIngestionLog` (per date). -/
structure RepoOracle where
  hasResult : Int → Except Unit Bool
  deleteOk : Int → Bool
  insertOk : String → Nat → Bool
  upsertOk : Int → Bool

/-- Observable effects of a worker. -/
inductive WEvent
  | hasCheck (d : Int)
  | deleteCall (d : Int)
  | readFile (name : String)
  | parse (e : PEvent)
  | upsert (d : Int) (name : String) (rows : Nat)
deriving DecidableEq

/-- Worker / orchestrator failures, in source order. -/
inductive WErr
  | missingFiles (names : List String)
  | badDate (name : String)
  | ledger (name : String)
  | deleteFailed (name : String)
  | fileFailed (name : String) (e : ParseErr)
  | upsertFailed (name : String)
deriving DecidableEq

/-- One worker of `ProcessDirectory` (the closure passed to `g.Go`):
derive the date from the filename, consult the ledger, skip when already
ingested and not forced, delete first when forced, then parse-and-persist
and upsert the ledger entry. -/
def processFile (oracle : RepoOracle) (cancel : Nat → Bool) (force : Bool)
    (name : String) (content : List (List String)) : List WEvent × Option WErr :=
  match parseFileNameDate name with
  | none => ([], some (.badDate name))
  | some d =>
    match oracle.hasResult d with
    | .error _ => ([.hasCheck d], some (.ledger name))
    | .ok ex =>
      if ex ∧ ¬force then ([.hasCheck d], none)
      else if ex ∧ force ∧ ¬oracle.deleteOk d then
        ([.hasCheck d, .deleteCall d], some (.deleteFailed name))
      else
        let pre : List WEvent :=
          if ex ∧ force then [.hasCheck d, .deleteCall d] else [.hasCheck d]
        let pr := parseFile cancel (oracle.insertOk name) content defaultBatchSize
        let evs := pre ++ .readFile name :: pr.1.map WEvent.parse
        match pr.2.2 with
        | some e => (evs, some (.fileFailed name e))
        | none =>
          if oracle.upsertOk d then (evs ++ [.upsert d name pr.2.1], none)
          else (evs ++ [.upsert d name pr.2.1], some (.upsertFailed name))

/-- The two clamping `if`s of `ProcessDirectory` on `nDays`. -/
def clampDays (nDays : Int) : Int :=
  if nDays > 7 then 7 else if nDays < 1 then 1 else nDays

/-- Sequential execution of the workers, stopping at the first error
(the error `errgroup` reports). -/
def runWorkers (oracle : RepoOracle) (cancel : Nat → Bool) (force : Bool)
    (dirListing : String → Option (List (List String))) :
    List String → List WEvent × Option WErr
  | [] => ([], none)
  | f :: rest =>
    let r := processFile oracle cancel force f ((dirListing f).getD [])
    match r.2 with
    | some e => (r.1, some e)
    | none =>
      let rr := runWorkers oracle cancel force dirListing rest
      (r.1 ++ rr.1, rr.2)

set_option linter.unusedVariables false in
/-- `ProcessDirectory(ctx, dir, db, nDays, parallel, force)`: clamp `nDays`
to [1,7], compute the expected filenames from the last business days of
`now` (= `time.Now()`), fail up front naming every missing file, then run
one worker per file.  `parallel` only bounds concurrency through the
semaphore and does not affect the modelled behaviour. -/
def processDirectory (oracle : RepoOracle) (cancel : Nat → Bool)
    (dirListing : String → Option (List (List String))) (now : Int)
    (nDays : Int) (parallel : Int) (force : Bool) : List WEvent × Option WErr :=
  let dates := lastNBusinessDays (clampDays nDays).toNat now
  let files := dates.map fileNameOf
  let missing := files.filter fun f => (dirListing f).isNone
  if missing ≠ [] then ([], some (.missingFiles missing))
  else runWorkers oracle cancel force dirListing files

/-- Data row used by the parser witnesses. -/
def wRow : List String :=
  ["", "PETR4", "I", "", "100", "101530000", "ABC", "REGULAR", "2025-09-11", "B", "S"]

/-- The trade `wRow` parses to. -/
def wTrade : Trade :=
  ⟨none, "PETR4", "I", 0, 100, some (10, 15, 30), "ABC", "REGULAR", some 20342, "B", "S"⟩

/-! ## C8: one cancellation check per row, before reading it -/

/-- Keep only check and read events (the per-row skeleton of the trace). -/
def isCheckOrRead (e : PEvent) : Bool :=
  match e with
  | .insertCall _ _ => false
  | _ => true

/-! ## Theorems -/

theorem daysFromCivil_day_shift (y m d : Int) :
    daysFromCivil y m d = daysFromCivil y m 1 + (d - 1) := by
  simp only [daysFromCivil]
  omega

theorem jan1_succ_bounds (y : Int) :
    jan1 y + 365 ≤ jan1 (y + 1) ∧ jan1 (y + 1) ≤ jan1 y + 366 := by
  simp only [jan1, daysFromCivil]
  norm_num
  omega

theorem jan1_le_of_le {y1 y2 : Int} (h : y1 ≤ y2) : jan1 y1 ≤ jan1 y2 := by
  have key : ∀ k : Nat, ∀ y : Int, jan1 y ≤ jan1 (y + k) := by
    intro k
    induction k with
    | zero => intro y; simp
    | succ n ih =>
      intro y
      have h1 := ih y
      have h2 := jan1_succ_bounds (y + n)
      have : ((n : Int) + 1) = ((n + 1 : Nat) : Int) := by push_cast; ring
      calc jan1 y ≤ jan1 (y + n) := h1
        _ ≤ jan1 (y + n + 1) := by omega
        _ = jan1 (y + (n + 1 : Nat)) := by push_cast; ring_nf
  have ⟨k, hk⟩ : ∃ k : Nat, y2 = y1 + k := ⟨(y2 - y1).toNat, by omega⟩
  rw [hk]; exact key k y1

theorem findYear_lower {z : Int} :
    ∀ steps y, jan1 y ≤ z → jan1 (findYear z steps y) ≤ z := by
  intro steps
  induction steps with
  | zero => intro y h; exact h
  | succ n ih =>
    intro y h
    simp only [findYear]
    split
    · exact ih (y + 1) (by assumption)
    · exact h

theorem findYear_upper {z : Int} :
    ∀ (steps : Nat) (y : Int),
      z < jan1 (y + (steps : Int) + 1) → z < jan1 (findYear z steps y + 1) := by
  intro steps
  induction steps with
  | zero => intro y h; simpa using h
  | succ n ih =>
    intro y h
    simp only [findYear]
    split
    · refine ih (y + 1) ?_
      rw [show (y + 1 : Int) + (n : Int) + 1 = y + ((n + 1 : Nat) : Int) + 1 by
        push_cast; ring]
      exact h
    · omega

theorem yearOf_start_le (z : Int) :
    jan1 ((z + 719468) / 146097 * 400 - 1) ≤ z := by
  simp only [jan1, daysFromCivil]
  norm_num
  omega

theorem yearOf_start_upper (z : Int) :
    z < jan1 ((z + 719468) / 146097 * 400 - 1 + 402 + 1) := by
  simp only [jan1, daysFromCivil]
  norm_num
  omega

/-- The year found for `z` is the year whose January 1 is the latest one
not after `z`. -/
theorem yearOf_spec (z : Int) : jan1 (yearOf z) ≤ z ∧ z < jan1 (yearOf z + 1) := by
  simp only [yearOf]
  refine ⟨findYear_lower 402 _ (yearOf_start_le z), findYear_upper 402 _ ?_⟩
  rw [show ((z + 719468) / 146097 * 400 - 1 + ((402 : Nat) : Int) + 1 : Int) =
      (z + 719468) / 146097 * 400 - 1 + 402 + 1 by push_cast; ring]
  exact yearOf_start_upper z

theorem yearOf_unique {z y : Int} (h1 : jan1 y ≤ z) (h2 : z < jan1 (y + 1)) :
    yearOf z = y := by
  have hs := yearOf_spec z
  by_contra hne
  rcases lt_or_gt_of_ne hne with hlt | hgt
  · have : yearOf z + 1 ≤ y := by omega
    have := jan1_le_of_le this
    omega
  · have : y + 1 ≤ yearOf z := by omega
    have := jan1_le_of_le this
    omega

theorem monthStart_succ_le {y m : Int} (h1 : 1 ≤ m) (h2 : m ≤ 11) :
    daysFromCivil y m 1 ≤ daysFromCivil y (m + 1) 1 := by
  simp only [daysFromCivil]
  interval_cases m <;> split_ifs <;> omega

theorem monthStart_mono {y m1 m2 : Int} (h1 : 1 ≤ m1) (h2 : m1 ≤ m2) (h3 : m2 ≤ 12) :
    daysFromCivil y m1 1 ≤ daysFromCivil y m2 1 := by
  have key : ∀ k : Nat, ∀ m : Int, 1 ≤ m → m + k ≤ 12 →
      daysFromCivil y m 1 ≤ daysFromCivil y (m + k) 1 := by
    intro k
    induction k with
    | zero => intro m _ _; simp
    | succ n ih =>
      intro m hm hk
      have step : daysFromCivil y m 1 ≤ daysFromCivil y (m + 1) 1 :=
        monthStart_succ_le hm (by omega)
      have tail := ih (m + 1) (by omega) (by omega)
      have e : (m + 1) + (n : Int) = m + ((n + 1 : Nat) : Int) := by push_cast; ring
      rw [e] at tail
      exact le_trans step tail
  have hk := key (m2 - m1).toNat m1 h1 (by omega)
  rw [show m1 + ((m2 - m1).toNat : Int) = m2 by omega] at hk
  exact hk

theorem nextMonthStart_eq (y m : Int) (h1 : 1 ≤ m) (h2 : m ≤ 12) :
    nextMonthStart y m = daysFromCivil y m 1 + goDaysIn y m := by
  simp only [nextMonthStart, goDaysIn, jan1, daysFromCivil]
  interval_cases m <;> split_ifs <;> omega

theorem findMonth_spec {z y : Int} :
    ∀ (steps : Nat) (m : Int), 1 ≤ m → m ≤ 12 → 12 ≤ m + steps →
      daysFromCivil y m 1 ≤ z → z < jan1 (y + 1) →
      1 ≤ findMonth z y steps m ∧ findMonth z y steps m ≤ 12 ∧
        daysFromCivil y (findMonth z y steps m) 1 ≤ z ∧
        z < nextMonthStart y (findMonth z y steps m) := by
  intro steps
  induction steps with
  | zero =>
    intro m hm1 hm2 hm3 hlo hhi
    have hm : m = 12 := by omega
    subst hm
    simp only [findMonth, nextMonthStart, if_pos rfl]
    exact ⟨by norm_num, by norm_num, hlo, hhi⟩
  | succ n ih =>
    intro m hm1 hm2 hm3 hlo hhi
    simp only [findMonth]
    split
    · rename_i hc
      exact ih (m + 1) (by omega) (by omega) (by omega) hc.2 hhi
    · rename_i hc
      push_neg at hc
      refine ⟨hm1, hm2, hlo, ?_⟩
      by_cases h12 : m = 12
      · subst h12; simpa [nextMonthStart] using hhi
      · have := hc (by omega)
        simp only [nextMonthStart, if_neg h12]
        omega

theorem monthOf_spec (z : Int) :
    1 ≤ monthOf z ∧ monthOf z ≤ 12 ∧
      daysFromCivil (yearOf z) (monthOf z) 1 ≤ z ∧
      z < nextMonthStart (yearOf z) (monthOf z) := by
  have hy := yearOf_spec z
  exact findMonth_spec 11 1 (by norm_num) (by norm_num) (by norm_num) hy.1 hy.2

theorem monthOf_unique {z y m : Int} (hy1 : jan1 y ≤ z) (hy2 : z < jan1 (y + 1))
    (hm1 : 1 ≤ m) (hm2 : m ≤ 12)
    (hlo : daysFromCivil y m 1 ≤ z) (hhi : z < nextMonthStart y m) :
    yearOf z = y ∧ monthOf z = m := by
  have hyz := yearOf_unique hy1 hy2
  subst hyz
  have hs := monthOf_spec z
  refine ⟨rfl, ?_⟩
  by_contra hne
  rcases lt_or_gt_of_ne hne with hlt | hgt
  · have h1 : monthOf z + 1 ≤ m := by omega
    have h2 : z < daysFromCivil (yearOf z) (monthOf z + 1) 1 := by
      rcases eq_or_lt_of_le hs.2.1 with he | hlt12
    -- monthOf z < m ≤ 12, so monthOf z < 12 and nextMonthStart is the next month start
      · omega
      · have := hs.2.2.2
        rw [show nextMonthStart (yearOf z) (monthOf z) =
            daysFromCivil (yearOf z) (monthOf z + 1) 1 by
          simp only [nextMonthStart]; rw [if_neg (by omega)]] at this
        exact this
    have h3 : daysFromCivil (yearOf z) (monthOf z + 1) 1 ≤ daysFromCivil (yearOf z) m 1 :=
      monthStart_mono (by omega) h1 hm2
    omega
  · have h1 : m + 1 ≤ monthOf z := by omega
    have h2 : z < daysFromCivil (yearOf z) (m + 1) 1 := by
      have : nextMonthStart (yearOf z) m = daysFromCivil (yearOf z) (m + 1) 1 := by
        simp only [nextMonthStart]; rw [if_neg (by omega)]
      omega
    have h3 : daysFromCivil (yearOf z) (m + 1) 1 ≤ daysFromCivil (yearOf z) (monthOf z) 1 :=
      monthStart_mono (by omega) h1 hs.2.1
    omega

theorem dayOf_spec (z : Int) :
    1 ≤ dayOf z ∧ dayOf z ≤ goDaysIn (yearOf z) (monthOf z) := by
  have hm := monthOf_spec z
  have hn := nextMonthStart_eq (yearOf z) (monthOf z) hm.1 hm.2.1
  simp only [dayOf]
  omega

/-- `civilFromDays` is a left inverse of `daysFromCivil`. -/
theorem daysFromCivil_civilFromDays (z : Int) :
    daysFromCivil (yearOf z) (monthOf z) (dayOf z) = z := by
  have hm := monthOf_spec z
  rw [daysFromCivil_day_shift]
  simp only [dayOf]
  ring

/-- `civilFromDays` is a right inverse of `daysFromCivil` on valid dates. -/
theorem civilFromDays_daysFromCivil {y m d : Int}
    (hm1 : 1 ≤ m) (hm2 : m ≤ 12) (hd1 : 1 ≤ d) (hd2 : d ≤ goDaysIn y m) :
    civilFromDays (daysFromCivil y m d) = (y, m, d) := by
  set z := daysFromCivil y m d with hz
  have hshift : z = daysFromCivil y m 1 + (d - 1) := daysFromCivil_day_shift y m d
  have hnext := nextMonthStart_eq y m hm1 hm2
  have hlo : daysFromCivil y m 1 ≤ z := by omega
  have hhi : z < nextMonthStart y m := by omega
  have hylo : jan1 y ≤ z := le_trans (monthStart_mono (by norm_num) hm1 hm2) hlo
  have hyhi : z < jan1 (y + 1) := by
    rcases eq_or_lt_of_le hm2 with he | hlt
    · subst he
      simpa [nextMonthStart] using hhi
    · have h1 : nextMonthStart y m = daysFromCivil y (m + 1) 1 := by
        simp only [nextMonthStart]; rw [if_neg (by omega)]
      have h2 : daysFromCivil y (m + 1) 1 ≤ daysFromCivil y 12 1 :=
        monthStart_mono (by omega) (by omega) (by norm_num)
      have h3 := nextMonthStart_eq y 12 (by norm_num) (by norm_num)
      have h4 : goDaysIn y 12 = 31 := by simp [goDaysIn]
      have h5 : nextMonthStart y 12 = jan1 (y + 1) := by simp [nextMonthStart]
      omega
  have hym := monthOf_unique hylo hyhi hm1 hm2 hlo hhi
  have hd : dayOf z = d := by
    simp only [dayOf, hym.1, hym.2]
    omega
  simp only [civilFromDays, hym.1, hym.2, hd]

/-! ### Truncating division helpers -/

theorem tdiv_bounds (a b : Int) (hb : 0 < b) :
    (a < 0 ∨ (b * (a.tdiv b) ≤ a ∧ a - b < b * (a.tdiv b))) ∧
      (0 ≤ a ∨ (a ≤ b * (a.tdiv b) ∧ b * (a.tdiv b) < a + b)) := by
  have hmod : a % b = a - b * (a / b) := Int.emod_def a b
  have hm0 : 0 ≤ a % b := Int.emod_nonneg a (ne_of_gt hb)
  have hm1 : a % b < b := Int.emod_lt_of_pos a hb
  have hmodn : (-a) % b = -a - b * ((-a) / b) := Int.emod_def (-a) b
  have hmn0 : 0 ≤ (-a) % b := Int.emod_nonneg (-a) (ne_of_gt hb)
  have hmn1 : (-a) % b < b := Int.emod_lt_of_pos (-a) hb
  rcases le_or_lt 0 a with ha | ha
  · rw [Int.tdiv_eq_ediv ha (le_of_lt hb)]
    refine ⟨Or.inr ⟨?_, ?_⟩, Or.inl ha⟩ <;> linarith
  · have hneg : (0 : Int) ≤ -a := by omega
    have h1 : a.tdiv b = -((-a).tdiv b) := by
      rw [← Int.neg_tdiv, neg_neg]
    rw [h1, Int.tdiv_eq_ediv hneg (le_of_lt hb), mul_neg]
    refine ⟨Or.inl ha, Or.inr ⟨?_, ?_⟩⟩ <;> linarith

theorem tmod_eq_sub (a b : Int) : a.tmod b = a - b * (a.tdiv b) := by
  have := Int.tmod_add_tdiv a b
  omega

theorem easter_gen {y mm dd : Int} (h1 : 2 ≤ mm) (h2 : mm ≤ 4) (h3 : 1 ≤ dd)
    (h4 : dd ≤ 31) : daysFromCivil y mm dd + 60 < daysFromCivil y 7 1 := by
  simp only [daysFromCivil]
  interval_cases mm <;> split_ifs <;> omega

theorem tmod_range (a b : Int) (hb : 0 < b) :
    -b < a.tmod b ∧ a.tmod b < b := by
  rcases le_or_lt 0 a with ha | ha
  · rw [Int.tmod_eq_emod ha (le_of_lt hb)]
    have h1 := Int.emod_nonneg a (ne_of_gt hb)
    have h2 := Int.emod_lt_of_pos a hb
    omega
  · have hneg : (0 : Int) ≤ -a := by omega
    have h1 : a.tmod b = -((-a).tmod b) := by
      have e1 := tmod_eq_sub a b
      have e2 := tmod_eq_sub (-a) b
      rw [Int.neg_tdiv, mul_neg] at e2
      linarith
    rw [h1, Int.tmod_eq_emod hneg (le_of_lt hb)]
    have h2 := Int.emod_nonneg (-a) (ne_of_gt hb)
    have h3 := Int.emod_lt_of_pos (-a) hb
    omega

theorem easterMD_range (y : Int) :
    2 ≤ (easterMD y).1 ∧ (easterMD y).1 ≤ 4 ∧
      1 ≤ (easterMD y).2 ∧ (easterMD y).2 ≤ 31 := by
  have hA : -19 < easterA y ∧ easterA y < 19 := by
    have := tmod_range y 19 (by norm_num)
    simp only [easterA]
    omega
  have hH : -30 < easterH y ∧ easterH y < 30 := by
    have := tmod_range
      (19 * easterA y + easterB y - easterD y - easterG y + 15) 30 (by norm_num)
    simp only [easterH]
    omega
  have hL : -7 < easterL y ∧ easterL y < 7 := by
    have := tmod_range
      (32 + 2 * easterE y + 2 * easterI y - easterH y - easterK y) 7 (by norm_num)
    simp only [easterL]
    omega
  have hM := tdiv_bounds (easterA y + 11 * easterH y + 22 * easterL y) 451 (by norm_num)
  have hMdef : easterM y = (easterA y + 11 * easterH y + 22 * easterL y).tdiv 451 := rfl
  have hv : 72 ≤ easterH y + easterL y - 7 * easterM y + 114 ∧
      easterH y + easterL y - 7 * easterM y + 114 ≤ 149 := by
    rw [hMdef]
    omega
  have h1 : (easterMD y).1 = (easterH y + easterL y - 7 * easterM y + 114).tdiv 31 := rfl
  have h2 : (easterMD y).2 =
      (easterH y + easterL y - 7 * easterM y + 114).tmod 31 + 1 := rfl
  have h3 := @Int.tdiv_eq_ediv (easterH y + easterL y - 7 * easterM y + 114) 31
    (by omega) (by norm_num)
  have h4 := @Int.tmod_eq_emod (easterH y + easterL y - 7 * easterM y + 114) 31
    (by omega) (by norm_num)
  rw [h1, h2, h3, h4]
  omega

theorem easterOrd_plus60_lt (y : Int) : easterOrd y + 60 < daysFromCivil y 7 1 := by
  have hr := easterMD_range y
  simp only [easterOrd]
  exact easter_gen hr.1 hr.2.1 hr.2.2.1 hr.2.2.2

/-- Any July weekday is a Brazilian business day: no fixed holiday falls in
July, and all four Easter-derived holidays fall before July 1. -/
theorem july_business {y dd : Int} (h1 : 1 ≤ dd) (h2 : dd ≤ 25)
    (hw : ¬(weekdayOf (daysFromCivil y 7 dd) = 6 ∨ weekdayOf (daysFromCivil y 7 dd) = 0)) :
    isBusinessDayBR (daysFromCivil y 7 dd) = true := by
  have hciv : civilFromDays (daysFromCivil y 7 dd) = (y, 7, dd) :=
    civilFromDays_daysFromCivil (by norm_num) (by norm_num) h1
      (by simp only [goDaysIn]; norm_num; omega)
  have he := easterOrd_plus60_lt y
  have hshift := daysFromCivil_day_shift y 7 dd
  simp only [isBusinessDayBR, hciv, if_neg hw]
  have hfix : fixedHolidaysBR.contains ((7 : Int), dd) = false := by
    simp [fixedHolidaysBR]
  simp only [hfix, Bool.false_eq_true, if_neg, if_false]
  rw [if_neg]
  omega

theorem jan1_sub_jul1 (y : Int) : jan1 (y + 1) - daysFromCivil y 7 1 = 184 := by
  simp only [jan1, daysFromCivil]
  split_ifs <;> omega

theorem aug1_sub_jul1 (y : Int) : daysFromCivil y 8 1 - daysFromCivil y 7 1 = 31 := by
  simp only [daysFromCivil]
  split_ifs <;> omega

theorem aug1_sub_jan1 (y : Int) :
    212 ≤ daysFromCivil y 8 1 - jan1 y ∧ daysFromCivil y 8 1 - jan1 y ≤ 213 := by
  simp only [jan1, daysFromCivil]
  norm_num
  omega

/-- Density of business days: walking backward from any day, a business day
is found within 600 steps. -/
theorem exists_business_day (z : Int) :
    ∃ k : Nat, k < 600 ∧ isBusinessDayBR (z - (k : Int)) = true := by
  obtain ⟨hy1, hy2⟩ := yearOf_spec z
  by_cases hc : daysFromCivil (yearOf z) 8 1 ≤ z
  · -- z is on or after August 1, use a weekday in July of the same year
    have hJ := jan1_sub_jul1 (yearOf z)
    have hA := aug1_sub_jul1 (yearOf z)
    set J := daysFromCivil (yearOf z) 7 1 with hJdef
    set j := (3 - (J + 4)) % 7 with hjdef
    have hj : 0 ≤ j ∧ j < 7 :=
      ⟨Int.emod_nonneg _ (by norm_num), Int.emod_lt_of_pos _ (by norm_num)⟩
    have hwd : weekdayOf (J + j) = 3 := by
      simp only [weekdayOf, hjdef]
      omega
    have hw : J + j = daysFromCivil (yearOf z) 7 (1 + j) := by
      rw [daysFromCivil_day_shift]
      omega
    have hbus : isBusinessDayBR (J + j) = true := by
      rw [hw]
      refine july_business (by omega) (by omega) ?_
      rw [← hw, hwd]
      norm_num
    refine ⟨(z - (J + j)).toNat, by omega, ?_⟩
    have : z - ((z - (J + j)).toNat : Int) = J + j := by omega
    rw [this]
    exact hbus
  · -- z is before August 1, use a weekday in July of the previous year
    have hJ := jan1_sub_jul1 (yearOf z - 1)
    have hA := aug1_sub_jan1 (yearOf z)
    rw [show yearOf z - 1 + 1 = yearOf z by ring] at hJ
    set J := daysFromCivil (yearOf z - 1) 7 1 with hJdef
    set j := (3 - (J + 4)) % 7 with hjdef
    have hj : 0 ≤ j ∧ j < 7 :=
      ⟨Int.emod_nonneg _ (by norm_num), Int.emod_lt_of_pos _ (by norm_num)⟩
    have hwd : weekdayOf (J + j) = 3 := by
      simp only [weekdayOf, hjdef]
      omega
    have hw : J + j = daysFromCivil (yearOf z - 1) 7 (1 + j) := by
      rw [daysFromCivil_day_shift]
      omega
    have hbus : isBusinessDayBR (J + j) = true := by
      rw [hw]
      refine july_business (by omega) (by omega) ?_
      rw [← hw, hwd]
      norm_num
    refine ⟨(z - (J + j)).toNat, by omega, ?_⟩
    have : z - ((z - (J + j)).toNat : Int) = J + j := by omega
    rw [this]
    exact hbus

theorem lastNBusinessDaysAux_zero (fuel : Nat) (z : Int) :
    lastNBusinessDaysAux fuel 0 z = [] := by
  cases fuel <;> rfl

theorem lastNBusinessDaysAux_spec :
    ∀ (fuel n : Nat) (z : Int) (k : Nat),
      1 ≤ n → isBusinessDayBR (z - (k : Int)) = true → k < 600 →
      k + 600 * (n - 1) + 1 ≤ fuel →
      (lastNBusinessDaysAux fuel n z).length = n ∧
        (lastNBusinessDaysAux fuel n z).Pairwise (· > ·) ∧
        ∀ w ∈ lastNBusinessDaysAux fuel n z, isBusinessDayBR w = true ∧ w ≤ z := by
  intro fuel
  induction fuel with
  | zero => intro n z k h1 h2 h3 h4; omega
  | succ f ih =>
    intro n z k h1 h2 h3 h4
    obtain ⟨n', rfl⟩ : ∃ n', n = n' + 1 := ⟨n - 1, by omega⟩
    simp only [lastNBusinessDaysAux]
    by_cases hb : isBusinessDayBR z
    · rw [if_pos hb]
      by_cases hz : n' = 0
      · subst hz
        rw [lastNBusinessDaysAux_zero]
        refine ⟨rfl, List.pairwise_singleton _ _, ?_⟩
        intro w hw
        rcases List.mem_singleton.mp hw with rfl
        exact ⟨hb, le_refl w⟩
      · obtain ⟨k', hk1, hk2⟩ := exists_business_day (z - 1)
        have hrec := ih n' (z - 1) k' (by omega) hk2 hk1 (by omega)
        refine ⟨by simp [hrec.1], ?_, ?_⟩
        · refine List.Pairwise.cons ?_ hrec.2.1
          intro w hw
          have := hrec.2.2 w hw
          omega
        · intro w hw
          rcases List.mem_cons.mp hw with rfl | hw'
          · exact ⟨hb, le_refl w⟩
          · have := hrec.2.2 w hw'
            exact ⟨this.1, by omega⟩
    · rw [if_neg hb]
      have hk0 : k ≠ 0 := by
        intro h0
        subst h0
        simp only [Nat.cast_zero, sub_zero] at h2
        exact hb h2
      have he : z - 1 - ((k - 1 : Nat) : Int) = z - (k : Int) := by
        omega
      have hrec := ih (n' + 1) (z - 1) (k - 1) h1 (by rw [he]; exact h2)
        (by omega) (by omega)
      refine ⟨hrec.1, hrec.2.1, ?_⟩
      intro w hw
      have := hrec.2.2 w hw
      exact ⟨this.1, by omega⟩

theorem isBusinessDayBR_elim {w : Int} (h : isBusinessDayBR w = true) :
    weekdayOf w ≠ 6 ∧ weekdayOf w ≠ 0 ∧
      ((civilFromDays w).2.1, (civilFromDays w).2.2) ∉ fixedHolidaysBR ∧
      w ≠ easterOrd (civilFromDays w).1 - 48 ∧
      w ≠ easterOrd (civilFromDays w).1 - 47 ∧
      w ≠ easterOrd (civilFromDays w).1 - 2 ∧
      w ≠ easterOrd (civilFromDays w).1 + 60 := by
  simp only [isBusinessDayBR] at h
  split_ifs at h with h1 h2 h3
  push_neg at h1 h3
  refine ⟨h1.1, h1.2, ?_, h3.1, h3.2.1, h3.2.2.1, h3.2.2.2⟩
  intro hmem
  exact h2 (List.elem_eq_true_of_mem hmem)

/-- C1: for every n in [1,7] and every reference day, `LastNBusinessDays`
returns exactly n dates, strictly decreasing (most recent first), none of
which is a Saturday or Sunday, a fixed month-day national holiday, or one of
the four movable holidays (Carnival Monday/Tuesday, Good Friday, Corpus
Christi) computed from the Meeus/Jones/Butcher Easter of its own year. -/
theorem C1_lastNBusinessDays (n : Nat) (hn1 : 1 ≤ n) (hn7 : n ≤ 7) (z : Int) :
    (lastNBusinessDays n z).length = n ∧
      (lastNBusinessDays n z).Pairwise (· > ·) ∧
      ∀ w ∈ lastNBusinessDays n z,
        weekdayOf w ≠ 6 ∧ weekdayOf w ≠ 0 ∧
        ((civilFromDays w).2.1, (civilFromDays w).2.2) ∉ fixedHolidaysBR ∧
        w ≠ easterOrd (civilFromDays w).1 - 48 ∧
        w ≠ easterOrd (civilFromDays w).1 - 47 ∧
        w ≠ easterOrd (civilFromDays w).1 - 2 ∧
        w ≠ easterOrd (civilFromDays w).1 + 60 := by
  obtain ⟨k, hk1, hk2⟩ := exists_business_day z
  have hs := lastNBusinessDaysAux_spec (600 * n) n z k hn1 hk2 hk1 (by omega)
  exact ⟨hs.1, hs.2.1, fun w hw => isBusinessDayBR_elim (hs.2.2 w hw).1⟩

/-- Witness for C1 at n = 3 and reference day 20351 (2025-09-20). -/
theorem C1_lastNBusinessDays_witness :
    1 ≤ 3 ∧ 3 ≤ 7 ∧
      ((lastNBusinessDays 3 20351).length = 3 ∧
        (lastNBusinessDays 3 20351).Pairwise (· > ·) ∧
        ∀ w ∈ lastNBusinessDays 3 20351,
          weekdayOf w ≠ 6 ∧ weekdayOf w ≠ 0 ∧
          ((civilFromDays w).2.1, (civilFromDays w).2.2) ∉ fixedHolidaysBR ∧
          w ≠ easterOrd (civilFromDays w).1 - 48 ∧
          w ≠ easterOrd (civilFromDays w).1 - 47 ∧
          w ≠ easterOrd (civilFromDays w).1 - 2 ∧
          w ≠ easterOrd (civilFromDays w).1 + 60) :=
  ⟨by norm_num, by norm_num, C1_lastNBusinessDays 3 (by norm_num) (by norm_num) 20351⟩

set_option linter.unusedVariables false in
theorem parseLoop_cancel {cancel insertOk : Nat → Bool} {batch : Nat}
    {rows : List (List String)} {buf : List Trade} {total line ci ii : Nat}
    (h : cancel ci = true) :
    parseLoop cancel insertOk batch rows buf total line ci ii =
      ([.check true], 0, some .canceled) := by
  cases rows <;> simp [parseLoop, h]

theorem parseLoop_nil_empty {cancel insertOk : Nat → Bool} {batch : Nat}
    {total line ci ii : Nat}
    (h : cancel ci = false) :
    parseLoop cancel insertOk batch [] [] total line ci ii =
      ([.check false], total, none) := by
  simp [parseLoop, h]

theorem parseLoop_nil_flush_ok {cancel insertOk : Nat → Bool} {batch : Nat}
    {buf : List Trade} {total line ci ii : Nat}
    (h : cancel ci = false) (hb : buf ≠ []) (hi : insertOk ii = true) :
    parseLoop cancel insertOk batch [] buf total line ci ii =
      ([.check false, .insertCall buf true], total, none) := by
  simp [parseLoop, h, hb, hi]

theorem parseLoop_nil_flush_fail {cancel insertOk : Nat → Bool} {batch : Nat}
    {buf : List Trade} {total line ci ii : Nat}
    (h : cancel ci = false) (hb : buf ≠ []) (hi : insertOk ii = false) :
    parseLoop cancel insertOk batch [] buf total line ci ii =
      ([.check false, .insertCall buf false], 0, some .finalFlush) := by
  simp [parseLoop, h, hb, hi]

theorem parseLoop_cons_badlen {cancel insertOk : Nat → Bool} {batch : Nat}
    {rec : List String} {rest : List (List String)} {buf : List Trade}
    {total line ci ii : Nat}
    (h : cancel ci = false) (hl : rec.length ≠ 11) :
    parseLoop cancel insertOk batch (rec :: rest) buf total line ci ii =
      ([.check false, .readRow (line + 1)], 0,
        some (.columnCount (line + 1) rec.length)) := by
  simp [parseLoop, h, hl]

theorem parseLoop_cons_rowerr {cancel insertOk : Nat → Bool} {batch : Nat}
    {rec : List String} {rest : List (List String)} {buf : List Trade}
    {total line ci ii : Nat} {e : RowErr}
    (h : cancel ci = false) (hl : rec.length = 11)
    (hr : recordToTrade rec = .error e) :
    parseLoop cancel insertOk batch (rec :: rest) buf total line ci ii =
      ([.check false, .readRow (line + 1)], 0, some (.rowFormat (line + 1) e)) := by
  simp [parseLoop, h, hl, hr]

theorem parseLoop_cons_step {cancel insertOk : Nat → Bool} {batch : Nat}
    {rec : List String} {rest : List (List String)} {buf : List Trade}
    {total line ci ii : Nat} {tr : Trade}
    (h : cancel ci = false) (hl : rec.length = 11)
    (hr : recordToTrade rec = .ok tr) (hfull : ¬ batch ≤ (buf ++ [tr]).length) :
    parseLoop cancel insertOk batch (rec :: rest) buf total line ci ii =
      (.check false :: .readRow (line + 1) ::
        (parseLoop cancel insertOk batch rest (buf ++ [tr]) (total + 1) (line + 1)
          (ci + 1) ii).1,
        (parseLoop cancel insertOk batch rest (buf ++ [tr]) (total + 1) (line + 1)
          (ci + 1) ii).2) := by
  simp only [List.length_append, List.length_cons, List.length_nil] at hfull
  simp [parseLoop, h, hl, hr]
  intro hcon
  omega

theorem parseLoop_cons_flush_ok {cancel insertOk : Nat → Bool} {batch : Nat}
    {rec : List String} {rest : List (List String)} {buf : List Trade}
    {total line ci ii : Nat} {tr : Trade}
    (h : cancel ci = false) (hl : rec.length = 11)
    (hr : recordToTrade rec = .ok tr) (hfull : batch ≤ (buf ++ [tr]).length)
    (hi : insertOk ii = true) :
    parseLoop cancel insertOk batch (rec :: rest) buf total line ci ii =
      (.check false :: .readRow (line + 1) :: .insertCall (buf ++ [tr]) true ::
        (parseLoop cancel insertOk batch rest [] (total + 1) (line + 1)
          (ci + 1) (ii + 1)).1,
        (parseLoop cancel insertOk batch rest [] (total + 1) (line + 1)
          (ci + 1) (ii + 1)).2) := by
  simp only [List.length_append, List.length_cons, List.length_nil] at hfull
  simp [parseLoop, h, hl, hr, hi]
  intro hcon
  omega

theorem parseLoop_cons_flush_fail {cancel insertOk : Nat → Bool} {batch : Nat}
    {rec : List String} {rest : List (List String)} {buf : List Trade}
    {total line ci ii : Nat} {tr : Trade}
    (h : cancel ci = false) (hl : rec.length = 11)
    (hr : recordToTrade rec = .ok tr) (hfull : batch ≤ (buf ++ [tr]).length)
    (hi : insertOk ii = false) :
    parseLoop cancel insertOk batch (rec :: rest) buf total line ci ii =
      ([.check false, .readRow (line + 1), .insertCall (buf ++ [tr]) false], 0,
        some (.flushBatch (line + 1))) := by
  simp only [List.length_append, List.length_cons, List.length_nil] at hfull
  simp [parseLoop, h, hl, hr, hi]
  intro hcon
  omega

/-! ## C10: any failing parse reports row count 0 -/

theorem parseLoop_count_zero (cancel insertOk : Nat → Bool) (batch : Nat) :
    ∀ (rows : List (List String)) (buf : List Trade) (total line ci ii : Nat),
      ((parseLoop cancel insertOk batch rows buf total line ci ii).2.2).isSome →
      (parseLoop cancel insertOk batch rows buf total line ci ii).2.1 = 0 := by
  intro rows
  induction rows with
  | nil =>
    intro buf total line ci ii h
    by_cases hc : cancel ci
    · rw [parseLoop_cancel hc]
    · rcases List.eq_nil_or_concat buf with hb | ⟨l, a, hb⟩
      · subst hb
        rw [parseLoop_nil_empty (by simpa using hc)] at h
        simp at h
      · have hbne : buf ≠ [] := by subst hb; simp
        by_cases hi : insertOk ii
        · rw [parseLoop_nil_flush_ok (by simpa using hc) hbne hi] at h
          simp at h
        · rw [parseLoop_nil_flush_fail (by simpa using hc) hbne (by simpa using hi)]
    | cons rec rest ih =>
    intro buf total line ci ii h
    by_cases hc : cancel ci
    · rw [parseLoop_cancel hc]
    · replace hc : cancel ci = false := by simpa using hc
      by_cases hl : rec.length = 11
      · cases hr : recordToTrade rec with
        | error e => rw [parseLoop_cons_rowerr hc hl hr]
        | ok tr =>
          by_cases hfull : batch ≤ (buf ++ [tr]).length
          · by_cases hi : insertOk ii
            · rw [parseLoop_cons_flush_ok hc hl hr hfull hi] at h ⊢
              exact ih [] (total + 1) (line + 1) (ci + 1) (ii + 1) h
            · rw [parseLoop_cons_flush_fail hc hl hr hfull (by simpa using hi)]
          · rw [parseLoop_cons_step hc hl hr hfull] at h ⊢
            exact ih (buf ++ [tr]) (total + 1) (line + 1) (ci + 1) ii h
      · rw [parseLoop_cons_badlen hc hl]

/-- C10: whenever Parse returns an error — header mismatch, row-shape or
cell-format error, flush failure, or cancellation — the row count it returns
is exactly 0, even when earlier batches were already flushed. -/
theorem C10_parse_error_count_zero (cancel insertOk : Nat → Bool)
    (content : List (List String)) (batch : Nat)
    (h : ((parseFile cancel insertOk content batch).2.2).isSome) :
    (parseFile cancel insertOk content batch).2.1 = 0 := by
  match content with
  | [] => rfl
  | header :: rows =>
    by_cases hlen : header.length = 11
    · simp only [parseFile] at h ⊢
      rw [if_neg (show ¬ header.length ≠ 11 by omega)] at h ⊢
      cases hbad : firstBadCol header expectedHeaders 0 with
      | some i => simp [hbad]
      | none =>
        simp only [hbad] at h ⊢
        exact parseLoop_count_zero cancel insertOk batch rows [] 0 1 0 0 h
    · simp [parseFile, hlen]

/-- Witness for C10: a file whose only data row has a malformed price. -/
theorem C10_parse_error_count_zero_witness :
    ((parseFile (fun _ => false) (fun _ => true)
        [expectedHeaders, ["", "PETR4", "I", "abc", "100", "", "", "", "", "", ""]]
        5).2.2).isSome = true ∧
      (parseFile (fun _ => false) (fun _ => true)
        [expectedHeaders, ["", "PETR4", "I", "abc", "100", "", "", "", "", "", ""]]
        5).2.1 = 0 :=
  ⟨by decide, C10_parse_error_count_zero _ _ _ _ (by decide)⟩

/-! ## C5: strict header and row-shape validation -/

theorem firstBadCol_none :
    ∀ (hs es : List String) (i k : Nat), firstBadCol hs es i = none →
      k < hs.length → k < es.length →
      trimGo (hs.getD k "") = es.getD k "" := by
  intro hs
  induction hs with
  | nil => intro es i k hnone hk1 hk2; simp at hk1
  | cons h hs ih =>
    intro es i k hnone hk1 hk2
    cases es with
    | nil => simp at hk2
    | cons e es =>
      simp only [firstBadCol] at hnone
      by_cases hm : trimGo h = e
      · rw [if_pos hm] at hnone
        cases k with
        | zero => simpa using hm
        | succ j =>
          exact ih es (i + 1) j hnone (by simpa using hk1) (by simpa using hk2)
      · rw [if_neg hm] at hnone
        exact absurd hnone (by simp)

theorem isOk_exists {e : Except RowErr Trade} (h : e.isOk = true) :
    ∃ t, e = .ok t := by
  cases e with
  | ok t => exact ⟨t, rfl⟩
  | error err => simp [Except.isOk, Except.toBool] at h

theorem parseLoop_badrec (cancel insertOk : Nat → Bool) (batch : Nat)
    (hc : ∀ i, cancel i = false) (hi : ∀ i, insertOk i = true) :
    ∀ (pre : List (List String)) (rec : List String) (rest : List (List String))
      (buf : List Trade) (total line ci ii : Nat),
      (∀ r ∈ pre, r.length = 11 ∧ (recordToTrade r).isOk = true) →
      rec.length ≠ 11 →
      (parseLoop cancel insertOk batch (pre ++ rec :: rest) buf total line ci ii).2 =
        (0, some (.columnCount (line + pre.length + 1) rec.length)) := by
  intro pre
  induction pre with
  | nil =>
    intro rec rest buf total line ci ii hpre hl
    rw [List.nil_append, parseLoop_cons_badlen (hc ci) hl]
    simp
  | cons r pre ih =>
    intro rec rest buf total line ci ii hpre hl
    have hr := hpre r (List.mem_cons_self r pre)
    obtain ⟨tr, htr⟩ := isOk_exists hr.2
    have hrest : ∀ s ∈ pre, s.length = 11 ∧ (recordToTrade s).isOk = true :=
      fun s hs => hpre s (List.mem_cons_of_mem _ hs)
    rw [List.cons_append]
    by_cases hfull : batch ≤ (buf ++ [tr]).length
    · rw [parseLoop_cons_flush_ok (hc ci) hr.1 htr hfull (hi ii)]
      have hrec := ih rec rest [] (total + 1) (line + 1) (ci + 1) (ii + 1) hrest hl
      rw [hrec]
      simp only [List.length_cons]
      rw [show line + 1 + pre.length + 1 = line + (pre.length + 1) + 1 by omega]
    · rw [parseLoop_cons_step (hc ci) hr.1 htr hfull]
      have hrec := ih rec rest (buf ++ [tr]) (total + 1) (line + 1) (ci + 1) ii hrest hl
      rw [hrec]
      simp only [List.length_cons]
      rw [show line + 1 + pre.length + 1 = line + (pre.length + 1) + 1 by omega]

/-- C5: the header must have exactly the eleven expected column names in
order — a wrong cell count or any wrong name fails the file before any data
row is read or inserted; and a data row with a wrong cell count fails the
whole file with an error carrying that row's line number. -/
theorem C5_strict_header_and_shape :
    (∀ (cancel insertOk : Nat → Bool) (batch : Nat) (header : List String)
        (rows : List (List String)), header.length ≠ 11 →
        parseFile cancel insertOk (header :: rows) batch =
          ([], 0, some (.headerLength header.length))) ∧
    (∀ (cancel insertOk : Nat → Bool) (batch : Nat) (header : List String)
        (rows : List (List String)), header.length = 11 →
        (∃ i, i < 11 ∧ trimGo (header.getD i "") ≠ expectedHeaders.getD i "") →
        ∃ j, parseFile cancel insertOk (header :: rows) batch =
          ([], 0, some (.headerCol (j + 1)))) ∧
    (∀ (cancel insertOk : Nat → Bool) (batch : Nat) (header : List String)
        (pre : List (List String)) (rec : List String) (rest : List (List String)),
        header.length = 11 → firstBadCol header expectedHeaders 0 = none →
        (∀ r ∈ pre, r.length = 11 ∧ (recordToTrade r).isOk = true) →
        (∀ i, cancel i = false) → (∀ i, insertOk i = true) →
        rec.length ≠ 11 →
        (parseFile cancel insertOk (header :: (pre ++ rec :: rest)) batch).2 =
          (0, some (.columnCount (pre.length + 2) rec.length))) := by
  refine ⟨?_, ?_, ?_⟩
  · intro cancel insertOk batch header rows hlen
    simp [parseFile, hlen]
  · intro cancel insertOk batch header rows hlen ⟨i, hi, hne⟩
    cases hbad : firstBadCol header expectedHeaders 0 with
    | some j =>
      refine ⟨j, ?_⟩
      simp only [parseFile]
      rw [if_neg (show ¬ header.length ≠ 11 by omega), hbad]
    | none =>
      exact absurd (firstBadCol_none header expectedHeaders 0 i hbad (by omega)
        (by simp [expectedHeaders]; omega)) hne
  · intro cancel insertOk batch header pre rec rest hlen hok hpre hc hi hl
    simp only [parseFile]
    rw [if_neg (show ¬ header.length ≠ 11 by omega), hok]
    have := parseLoop_badrec cancel insertOk batch hc hi pre rec rest [] 0 1 0 0 hpre hl
    rw [this]
    rw [show 1 + pre.length + 1 = pre.length + 2 by omega]

/-- Witness for C5: wrong header length, wrong header name, and a short data
row, each at a concrete input. -/
theorem C5_strict_header_and_shape_witness :
    (parseFile (fun _ => false) (fun _ => true) [["X", "Y", "Z"]] 5 =
        ([], 0, some (.headerLength 3))) ∧
      (∃ j, parseFile (fun _ => false) (fun _ => true)
          [["Wrong", "CodigoInstrumento", "AcaoAtualizacao", "PrecoNegocio",
            "QuantidadeNegociada", "HoraFechamento", "CodigoIdentificadorNegocio",
            "TipoSessaoPregao", "DataNegocio", "CodigoParticipanteComprador",
            "CodigoParticipanteVendedor"]] 5 =
          ([], 0, some (.headerCol (j + 1)))) ∧
      ((parseFile (fun _ => false) (fun _ => true)
          [expectedHeaders, ["a", "b"]] 5).2 = (0, some (.columnCount 2 2))) := by
  refine ⟨?_, ?_, ?_⟩
  · exact C5_strict_header_and_shape.1 _ _ 5 _ _ (by decide)
  · exact C5_strict_header_and_shape.2.1 _ _ 5 _ _ (by decide)
      ⟨0, by decide, by decide⟩
  · have := C5_strict_header_and_shape.2.2 (fun _ => false) (fun _ => true) 5
      expectedHeaders [] ["a", "b"] [] (by decide) (by decide)
      (by intro r hr; simp at hr) (fun _ => rfl) (fun _ => rfl) (by decide)
    simpa using this

/-! ## C6 and C9: cell semantics of `recordToTrade` -/

set_option maxHeartbeats 1000000 in
theorem recordToTrade_ok_fields {rec : List String} {t : Trade}
    (h : recordToTrade rec = .ok t) :
    (trimGo (rec.getD 0 "") = "" → t.ReferenceDate = none) ∧
      (trimGo (rec.getD 0 "") ≠ "" →
        parseDateISO (trimGo (rec.getD 0 "")) = t.ReferenceDate ∧
          t.ReferenceDate.isSome = true) ∧
      t.InstrumentCode = trimGo (rec.getD 1 "") ∧
      t.UpdateAction = trimGo (rec.getD 2 "") ∧
      (trimGo (rec.getD 3 "") = "" → t.TradePrice = 0) ∧
      (trimGo (rec.getD 3 "") ≠ "" →
        parseFloatDec (dotify (trimGo (rec.getD 3 ""))) = some t.TradePrice) ∧
      (trimGo (rec.getD 4 "") = "" → t.TradeQuantity = 0) ∧
      (trimGo (rec.getD 4 "") ≠ "" →
        parseInt64 (trimGo (rec.getD 4 "")) = some t.TradeQuantity) ∧
      (trimGo (rec.getD 5 "") = "" → t.ClosingTime = none) ∧
      (trimGo (rec.getD 5 "") ≠ "" →
        6 ≤ (trimGo (rec.getD 5 "")).length ∧
          parseHMS ((trimGo (rec.getD 5 "")).toList.take 6) = t.ClosingTime ∧
          t.ClosingTime.isSome = true) ∧
      t.TradeIdentifierCode = trimGo (rec.getD 6 "") ∧
      t.SessionType = trimGo (rec.getD 7 "") ∧
      (trimGo (rec.getD 8 "") = "" → t.TradeDate = none) ∧
      (trimGo (rec.getD 8 "") ≠ "" →
        parseDateISO (trimGo (rec.getD 8 "")) = t.TradeDate ∧
          t.TradeDate.isSome = true) ∧
      t.BuyerParticipantCode = trimGo (rec.getD 9 "") ∧
      t.SellerParticipantCode = trimGo (rec.getD 10 "") := by
  simp only [recordToTrade, bind, Except.bind, pure, Except.pure] at h
  repeat' split at h
  all_goals first
    | exact Except.noConfusion h
    | (injection h with h; subst h; simp_all)

/-- C6: within a well-shaped row, an empty price or quantity cell becomes
zero; a non-empty price cell is parsed numerically after comma→dot
normalization and a malformed one fails the file; empty date or clock-time
cells are absent; a non-empty clock-time shorter than 6 characters fails the
file, otherwise only its first 6 characters are interpreted as
hours/minutes/seconds; malformed non-empty dates or quantities fail the
file; the remaining string cells are trimmed. -/
theorem C6_cell_semantics :
    (∀ (rec : List String) (t : Trade), recordToTrade rec = .ok t →
      (trimGo (rec.getD 0 "") = "" → t.ReferenceDate = none) ∧
        (trimGo (rec.getD 0 "") ≠ "" →
          parseDateISO (trimGo (rec.getD 0 "")) = t.ReferenceDate ∧
            t.ReferenceDate.isSome = true) ∧
        t.InstrumentCode = trimGo (rec.getD 1 "") ∧
        t.UpdateAction = trimGo (rec.getD 2 "") ∧
        (trimGo (rec.getD 3 "") = "" → t.TradePrice = 0) ∧
        (trimGo (rec.getD 3 "") ≠ "" →
          parseFloatDec (dotify (trimGo (rec.getD 3 ""))) = some t.TradePrice) ∧
        (trimGo (rec.getD 4 "") = "" → t.TradeQuantity = 0) ∧
        (trimGo (rec.getD 4 "") ≠ "" →
          parseInt64 (trimGo (rec.getD 4 "")) = some t.TradeQuantity) ∧
        (trimGo (rec.getD 5 "") = "" → t.ClosingTime = none) ∧
        (trimGo (rec.getD 5 "") ≠ "" →
          6 ≤ (trimGo (rec.getD 5 "")).length ∧
            parseHMS ((trimGo (rec.getD 5 "")).toList.take 6) = t.ClosingTime ∧
            t.ClosingTime.isSome = true) ∧
        t.TradeIdentifierCode = trimGo (rec.getD 6 "") ∧
        t.SessionType = trimGo (rec.getD 7 "") ∧
        (trimGo (rec.getD 8 "") = "" → t.TradeDate = none) ∧
        (trimGo (rec.getD 8 "") ≠ "" →
          parseDateISO (trimGo (rec.getD 8 "")) = t.TradeDate ∧
            t.TradeDate.isSome = true) ∧
        t.BuyerParticipantCode = trimGo (rec.getD 9 "") ∧
        t.SellerParticipantCode = trimGo (rec.getD 10 "")) ∧
    (∀ rec : List String, trimGo (rec.getD 3 "") ≠ "" →
      parseFloatDec (dotify (trimGo (rec.getD 3 ""))) = none →
      (recordToTrade rec).isOk = false) ∧
    (∀ rec : List String, trimGo (rec.getD 4 "") ≠ "" →
      parseInt64 (trimGo (rec.getD 4 "")) = none →
      (recordToTrade rec).isOk = false) ∧
    (∀ rec : List String, trimGo (rec.getD 5 "") ≠ "" →
      (trimGo (rec.getD 5 "")).length < 6 →
      (recordToTrade rec).isOk = false) ∧
    (∀ rec : List String, trimGo (rec.getD 5 "") ≠ "" →
      parseHMS ((trimGo (rec.getD 5 "")).toList.take 6) = none →
      (recordToTrade rec).isOk = false) ∧
    (∀ rec : List String, trimGo (rec.getD 0 "") ≠ "" →
      parseDateISO (trimGo (rec.getD 0 "")) = none →
      (recordToTrade rec).isOk = false) ∧
    (∀ rec : List String, trimGo (rec.getD 8 "") ≠ "" →
      parseDateISO (trimGo (rec.getD 8 "")) = none →
      (recordToTrade rec).isOk = false) := by
  refine ⟨fun rec t h => recordToTrade_ok_fields h, ?_, ?_, ?_, ?_, ?_, ?_⟩
  · intro rec hne hnone
    cases hrec : recordToTrade rec with
    | error e => simp [Except.isOk, Except.toBool]
    | ok t =>
      have hf := (recordToTrade_ok_fields hrec).2.2.2.2.2.1 hne
      rw [hnone] at hf
      exact Option.noConfusion hf
  · intro rec hne hnone
    cases hrec : recordToTrade rec with
    | error e => simp [Except.isOk, Except.toBool]
    | ok t =>
      have hf := (recordToTrade_ok_fields hrec).2.2.2.2.2.2.2.1 hne
      rw [hnone] at hf
      exact Option.noConfusion hf
  · intro rec hne hshort
    cases hrec : recordToTrade rec with
    | error e => simp [Except.isOk, Except.toBool]
    | ok t =>
      have hf := (recordToTrade_ok_fields hrec).2.2.2.2.2.2.2.2.2.1 hne
      omega
  · intro rec hne hnone
    cases hrec : recordToTrade rec with
    | error e => simp [Except.isOk, Except.toBool]
    | ok t =>
      have hf := (recordToTrade_ok_fields hrec).2.2.2.2.2.2.2.2.2.1 hne
      have h1 := hf.2.1
      rw [hnone] at h1
      have h2 := hf.2.2
      rw [← h1] at h2
      simp at h2
  · intro rec hne hnone
    cases hrec : recordToTrade rec with
    | error e => simp [Except.isOk, Except.toBool]
    | ok t =>
      have hf := (recordToTrade_ok_fields hrec).2.1 hne
      have h1 := hf.1
      rw [hnone] at h1
      have h2 := hf.2
      rw [← h1] at h2
      simp at h2
  · intro rec hne hnone
    cases hrec : recordToTrade rec with
    | error e => simp [Except.isOk, Except.toBool]
    | ok t =>
      have hf := (recordToTrade_ok_fields hrec).2.2.2.2.2.2.2.2.2.2.2.2.2.1 hne
      have h1 := hf.1
      rw [hnone] at h1
      have h2 := hf.2
      rw [← h1] at h2
      simp at h2

/-- Witness for C6: a row with empty price and a populated quantity and
clock time, plus a malformed-price row. -/
theorem C6_cell_semantics_witness :
    recordToTrade ["", "PETR4", "I", "", "100", "101530000", "ABC", "REGULAR",
        "2025-09-11", "B", "S"] =
      .ok { ReferenceDate := none, InstrumentCode := "PETR4", UpdateAction := "I",
            TradePrice := 0, TradeQuantity := 100,
            ClosingTime := some (10, 15, 30), TradeIdentifierCode := "ABC",
            SessionType := "REGULAR", TradeDate := some 20342,
            BuyerParticipantCode := "B", SellerParticipantCode := "S" } ∧
      (trimGo "100" ≠ "" → parseInt64 (trimGo "100") = some 100) ∧
      (recordToTrade ["", "PETR4", "I", "abc", "100", "", "", "", "", "", ""]).isOk =
        false := by
  have hdec : recordToTrade ["", "PETR4", "I", "", "100", "101530000", "ABC",
      "REGULAR", "2025-09-11", "B", "S"] =
      .ok { ReferenceDate := none, InstrumentCode := "PETR4", UpdateAction := "I",
            TradePrice := 0, TradeQuantity := 100,
            ClosingTime := some (10, 15, 30), TradeIdentifierCode := "ABC",
            SessionType := "REGULAR", TradeDate := some 20342,
            BuyerParticipantCode := "B", SellerParticipantCode := "S" } := by decide
  refine ⟨hdec, ?_, ?_⟩
  · intro hne
    exact (C6_cell_semantics.1 _ _ hdec).2.2.2.2.2.2.2.1 hne
  · exact C6_cell_semantics.2.1 _ (by decide) (by decide)

/-- Counterexample for C9 as stated: a row whose quantity cell is `"-1"`
parses successfully into a trade with negative quantity. -/
theorem C9_counterexample :
    recordToTrade ["", "PETR4", "I", "", "-1", "", "", "", "", "", ""] =
      .ok { ReferenceDate := none, InstrumentCode := "PETR4", UpdateAction := "I",
            TradePrice := 0, TradeQuantity := -1, ClosingTime := none,
            TradeIdentifierCode := "", SessionType := "", TradeDate := none,
            BuyerParticipantCode := "", SellerParticipantCode := "" } ∧
      (-1 : Int) < 0 :=
  ⟨by decide, by decide⟩

theorem parseInt64_range {s : String} {v : Int} (h : parseInt64 s = some v) :
    -(2 ^ 63) ≤ v ∧ v ≤ 2 ^ 63 - 1 := by
  simp only [parseInt64] at h
  split_ifs at h with h1 h2
  injection h with h
  omega

/-- C9 amended: every trade produced by successful row parsing has a
quantity that is an integer in the signed 64-bit range (`ParseInt(s,10,64)`
also accepts negative values, so no non-negativity holds). -/
theorem C9_amended_quantity_int64 {rec : List String} {t : Trade}
    (h : recordToTrade rec = .ok t) :
    -(2 ^ 63) ≤ t.TradeQuantity ∧ t.TradeQuantity ≤ 2 ^ 63 - 1 := by
  have hf := recordToTrade_ok_fields h
  by_cases hq : trimGo (rec.getD 4 "") = ""
  · have hz := hf.2.2.2.2.2.2.1 hq
    rw [hz]
    norm_num
  · exact parseInt64_range (hf.2.2.2.2.2.2.2.1 hq)

/-- Witness for the amended C9. -/
theorem C9_amended_quantity_int64_witness :
    recordToTrade ["", "", "", "", "", "", "", "", "", "", ""] =
        .ok (Trade.mk none "" "" 0 0 none "" "" none "" "") ∧
      -(2 ^ 63) ≤ (Trade.mk none "" "" 0 0 none "" "" none "" "").TradeQuantity ∧
      (Trade.mk none "" "" 0 0 none "" "" none "" "").TradeQuantity ≤ 2 ^ 63 - 1 := by
  have h : recordToTrade ["", "", "", "", "", "", "", "", "", "", ""] =
      .ok (Trade.mk none "" "" 0 0 none "" "" none "" "") := by decide
  exact ⟨h, (C9_amended_quantity_int64 h).1, (C9_amended_quantity_int64 h).2⟩

/-! ## C7: batching -/

theorem chunkList_nil (b : Nat) : chunkList b [] = [] := by
  simp [chunkList]

theorem chunkList_join (b : Nat) (l : List Trade) : (chunkList b l).flatten = l := by
  have key : ∀ (n : Nat) (l : List Trade), l.length ≤ n → (chunkList b l).flatten = l := by
    intro n
    induction n with
    | zero =>
      intro l hl
      have : l = [] := List.eq_nil_of_length_eq_zero (by omega)
      subst this
      simp [chunkList]
    | succ n ih =>
      intro l hl
      cases l with
      | nil => simp [chunkList]
      | cons x xs =>
        rw [chunkList]
        rw [List.flatten_cons]
        rw [ih (xs.drop (max b 1 - 1)) (by
          have := List.length_drop (max b 1 - 1) xs
          simp only [List.length_cons] at hl
          omega)]
        rw [show max b 1 = (max b 1 - 1) + 1 by omega, List.take_succ_cons]
        simp [List.take_append_drop]
  exact key l.length l le_rfl

theorem chunkList_small {b : Nat} {l : List Trade} (h1 : l ≠ []) (h2 : l.length ≤ b) :
    chunkList b l = [l] := by
  cases l with
  | nil => exact absurd rfl h1
  | cons x xs =>
    rw [chunkList]
    have hx : xs.drop (max b 1 - 1) = [] := by
      apply List.drop_eq_nil_of_le
      simp only [List.length_cons] at h2
      omega
    rw [hx, chunkList_nil]
    have ht : (x :: xs).take (max b 1) = x :: xs := by
      apply List.take_of_length_le
      simp only [List.length_cons] at h2 ⊢
      omega
    rw [ht]

theorem chunkList_cons_exact {b : Nat} {l rest : List Trade} (hb : 1 ≤ b)
    (h : l.length = b) : chunkList b (l ++ rest) = l :: chunkList b rest := by
  cases l with
  | nil => simp at h; omega
  | cons x xs =>
    rw [List.cons_append, chunkList]
    have hmax : max b 1 = b := by omega
    have h1 : (x :: (xs ++ rest)).take (max b 1) = x :: xs := by
      rw [hmax, show b = xs.length + 1 by simp at h; omega, List.take_succ_cons]
      rw [List.take_left]
    have h2 : (xs ++ rest).drop (max b 1 - 1) = rest := by
      rw [hmax, show b - 1 = xs.length by simp at h; omega]
      exact List.drop_left xs rest
    rw [h1, h2]

theorem chunkList_count {b : Nat} (hb : 1 ≤ b) (l : List Trade) :
    (chunkList b l).length = (l.length + b - 1) / b := by
  have key : ∀ (n : Nat) (l : List Trade), l.length ≤ n →
      (chunkList b l).length = (l.length + b - 1) / b := by
    intro n
    induction n with
    | zero =>
      intro l hl
      have : l = [] := List.eq_nil_of_length_eq_zero (by omega)
      subst this
      rw [chunkList_nil]
      simp only [List.length_nil]
      rw [Nat.div_eq_of_lt (by omega)]
    | succ n ih =>
      intro l hl
      cases l with
      | nil =>
        rw [chunkList_nil]
        simp only [List.length_nil]
        rw [Nat.div_eq_of_lt (by omega)]
      | cons x xs =>
        rw [chunkList]
        simp only [List.length_cons]
        rw [ih (xs.drop (max b 1 - 1)) (by
          have := List.length_drop (max b 1 - 1) xs
          simp only [List.length_cons] at hl
          omega)]
        rw [List.length_drop]
        have hmax : max b 1 = b := by omega
        rw [hmax]
        by_cases hcase : b - 1 ≤ xs.length
        · have e1 : xs.length - (b - 1) + b - 1 = xs.length := by omega
          have e2 : xs.length + 1 + b - 1 = xs.length + b := by omega
          rw [e1, e2, Nat.add_div_right _ (by omega : 0 < b)]
        · have e1 : xs.length - (b - 1) = 0 := by omega
          have e2 : xs.length + 1 + b - 1 = xs.length + b := by omega
          rw [e1, e2, Nat.add_div_right _ (by omega : 0 < b)]
          rw [Nat.div_eq_of_lt (by omega), Nat.div_eq_of_lt (by omega)]
  exact key l.length l le_rfl

theorem chunkList_sizes {b : Nat} (hb : 1 ≤ b) (l : List Trade) :
    (∀ c ∈ (chunkList b l).dropLast, c.length = b) ∧
      ∀ c ∈ chunkList b l, 1 ≤ c.length ∧ c.length ≤ b := by
  have key : ∀ (n : Nat) (l : List Trade), l.length ≤ n →
      (∀ c ∈ (chunkList b l).dropLast, c.length = b) ∧
        ∀ c ∈ chunkList b l, 1 ≤ c.length ∧ c.length ≤ b := by
    intro n
    induction n with
    | zero =>
      intro l hl
      have : l = [] := List.eq_nil_of_length_eq_zero (by omega)
      subst this
      simp [chunkList]
    | succ n ih =>
      intro l hl
      cases l with
      | nil => simp [chunkList]
      | cons x xs =>
        rw [chunkList]
        have hrec := ih (xs.drop (max b 1 - 1)) (by
          have := List.length_drop (max b 1 - 1) xs
          simp only [List.length_cons] at hl
          omega)
        have hmax : max b 1 = b := by omega
        constructor
        · intro c hc
          cases hrest : chunkList b (xs.drop (max b 1 - 1)) with
          | nil =>
            rw [hrest] at hc
            simp at hc
          | cons c0 cs =>
            rw [hrest] at hc
            have hd : ((x :: xs).take (max b 1) :: c0 :: cs).dropLast =
                (x :: xs).take (max b 1) :: (c0 :: cs).dropLast := rfl
            rw [hd] at hc
            rcases List.mem_cons.mp hc with rfl | htail
            · have hne : xs.drop (max b 1 - 1) ≠ [] := by
                intro h0
                rw [h0, chunkList_nil] at hrest
                exact List.noConfusion hrest
              have hlen : max b 1 - 1 < xs.length := by
                by_contra hcon
                exact hne (List.drop_eq_nil_of_le (by omega))
              simp only [List.length_take, List.length_cons, hmax]
              omega
            · exact hrec.1 c (by rw [hrest]; exact htail)
        · intro c hc
          rcases List.mem_cons.mp hc with rfl | htail
          · refine ⟨?_, ?_⟩
            · simp only [List.length_take, List.length_cons, hmax]
              omega
            · simp only [List.length_take, List.length_cons, hmax]
              omega
          · exact hrec.2 c htail
  exact key l.length l le_rfl

theorem mapM_nil_ok {trades : List Trade}
    (h : ([] : List (List String)).mapM recordToTrade = .ok trades) : trades = [] := by
  simp only [List.mapM_nil, pure, Except.pure] at h
  injection h with h
  exact h.symm

theorem mapM_cons_ok {rec : List String} {rest : List (List String)}
    {trades : List Trade}
    (h : (rec :: rest).mapM recordToTrade = .ok trades) :
    ∃ tr trs, recordToTrade rec = .ok tr ∧ rest.mapM recordToTrade = .ok trs ∧
      trades = tr :: trs := by
  simp only [List.mapM_cons, bind, Except.bind, pure, Except.pure] at h
  cases hr : recordToTrade rec with
  | error e => rw [hr] at h; exact Except.noConfusion h
  | ok tr =>
    rw [hr] at h
    cases hrest : rest.mapM recordToTrade with
    | error e => rw [hrest] at h; exact Except.noConfusion h
    | ok trs =>
      rw [hrest] at h
      injection h with h
      exact ⟨tr, trs, rfl, rfl, h.symm⟩

theorem insertBatches_check (b : Bool) (evs : List PEvent) :
    insertBatches (.check b :: evs) = insertBatches evs := rfl

theorem insertBatches_read (n : Nat) (evs : List PEvent) :
    insertBatches (.readRow n :: evs) = insertBatches evs := rfl

theorem insertBatches_insert (t : List Trade) (ok : Bool) (evs : List PEvent) :
    insertBatches (.insertCall t ok :: evs) = t :: insertBatches evs := rfl

/-- A run with no cancellation, all-valid rows and an always-succeeding
repository: the loop returns `total + rows.length` with no error, and its
insert calls are exactly the `batch`-sized chunks of buffer-then-new-trades. -/
theorem parseLoop_success (cancel insertOk : Nat → Bool) (batch : Nat)
    (hc : ∀ i, cancel i = false) (hi : ∀ i, insertOk i = true) (hb : 1 ≤ batch) :
    ∀ (rows : List (List String)) (trades buf : List Trade)
      (total line ci ii : Nat),
      rows.mapM recordToTrade = .ok trades →
      (∀ r ∈ rows, r.length = 11) →
      buf.length < batch →
      (parseLoop cancel insertOk batch rows buf total line ci ii).2 =
        (total + rows.length, none) ∧
        insertBatches (parseLoop cancel insertOk batch rows buf total line ci ii).1 =
          chunkList batch (buf ++ trades) := by
  intro rows
  induction rows with
  | nil =>
    intro trades buf total line ci ii hmap hlen hbuf
    have ht := mapM_nil_ok hmap
    subst ht
    rcases List.eq_nil_or_concat buf with hb0 | ⟨l, a, hb0⟩
    · subst hb0
      rw [parseLoop_nil_empty (hc ci)]
      simp [insertBatches, chunkList_nil]
    · have hbne : buf ≠ [] := by subst hb0; simp
      rw [parseLoop_nil_flush_ok (hc ci) hbne (hi ii)]
      refine ⟨by simp, ?_⟩
      rw [List.append_nil]
      rw [chunkList_small hbne (by omega)]
      rfl
  | cons rec rest ih =>
    intro trades buf total line ci ii hmap hlen hbuf
    obtain ⟨tr, trs, hr, hrest, htr⟩ := mapM_cons_ok hmap
    subst htr
    have hlen1 : rec.length = 11 := hlen rec (List.mem_cons_self _ _)
    have hlenr : ∀ r ∈ rest, r.length = 11 :=
      fun r hrr => hlen r (List.mem_cons_of_mem _ hrr)
    by_cases hfull : batch ≤ (buf ++ [tr]).length
    · have hexact : (buf ++ [tr]).length = batch := by
        simp only [List.length_append, List.length_cons, List.length_nil] at hfull ⊢
        omega
      rw [parseLoop_cons_flush_ok (hc ci) hlen1 hr hfull (hi ii)]
      have hrec := ih trs [] (total + 1) (line + 1) (ci + 1) (ii + 1) hrest hlenr
        (by simpa using hb)
      refine ⟨?_, ?_⟩
      · rw [hrec.1]
        simp only [List.length_cons]
        rw [show total + 1 + rest.length = total + (rest.length + 1) by omega]
      · rw [insertBatches_check, insertBatches_read, insertBatches_insert]
        rw [show buf ++ tr :: trs = (buf ++ [tr]) ++ trs by simp]
        rw [chunkList_cons_exact hb hexact]
        have h2 := hrec.2
        rw [List.nil_append] at h2
        rw [h2]
    · rw [parseLoop_cons_step (hc ci) hlen1 hr hfull]
      have hrec := ih trs (buf ++ [tr]) (total + 1) (line + 1) (ci + 1) ii hrest hlenr
        (by simp only [List.length_append, List.length_cons, List.length_nil] at hfull ⊢
            omega)
      refine ⟨?_, ?_⟩
      · rw [hrec.1]
        simp only [List.length_cons]
        rw [show total + 1 + rest.length = total + (rest.length + 1) by omega]
      · rw [insertBatches_check, insertBatches_read, hrec.2]
        rw [show buf ++ tr :: trs = (buf ++ [tr]) ++ trs by simp]

/-- A run with no cancellation and all-valid rows where the `k`-th insert
call fails: the loop reports 0 rows with a flush error, the insert calls are
exactly the first `k + 1` chunks, and the failing call is the very last
event — nothing runs after it. -/
theorem parseLoop_insert_fails (cancel insertOk : Nat → Bool) (batch : Nat)
    (hc : ∀ i, cancel i = false) (hb : 1 ≤ batch) :
    ∀ (rows : List (List String)) (trades buf : List Trade)
      (total line ci ii k : Nat),
      rows.mapM recordToTrade = .ok trades →
      (∀ r ∈ rows, r.length = 11) →
      buf.length < batch →
      (∀ j, j < k → insertOk (ii + j) = true) →
      insertOk (ii + k) = false →
      k < (chunkList batch (buf ++ trades)).length →
      (parseLoop cancel insertOk batch rows buf total line ci ii).2.1 = 0 ∧
        ((∃ l, (parseLoop cancel insertOk batch rows buf total line ci ii).2.2 =
            some (.flushBatch l)) ∨
          (parseLoop cancel insertOk batch rows buf total line ci ii).2.2 =
            some .finalFlush) ∧
        insertBatches (parseLoop cancel insertOk batch rows buf total line ci ii).1 =
          (chunkList batch (buf ++ trades)).take (k + 1) ∧
        (parseLoop cancel insertOk batch rows buf total line ci ii).1.getLast? =
          some (.insertCall ((chunkList batch (buf ++ trades)).getD k []) false) := by
  intro rows
  induction rows with
  | nil =>
    intro trades buf total line ci ii k hmap hlen hbuf hj hfail hk
    have ht := mapM_nil_ok hmap
    subst ht
    rw [List.append_nil] at hk ⊢
    rcases List.eq_nil_or_concat buf with hb0 | ⟨l, a, hb0⟩
    · subst hb0
      rw [chunkList_nil] at hk
      simp at hk
    · have hbne : buf ≠ [] := by subst hb0; simp
      rw [chunkList_small hbne (by omega)] at hk ⊢
      have hk0 : k = 0 := by simpa using hk
      subst hk0
      rw [parseLoop_nil_flush_fail (hc ci) hbne (by simpa using hfail)]
      refine ⟨rfl, Or.inr rfl, rfl, rfl⟩
  | cons rec rest ih =>
    intro trades buf total line ci ii k hmap hlen hbuf hj hfail hk
    obtain ⟨tr, trs, hr, hrest, htr⟩ := mapM_cons_ok hmap
    subst htr
    have hlen1 : rec.length = 11 := hlen rec (List.mem_cons_self _ _)
    have hlenr : ∀ r ∈ rest, r.length = 11 :=
      fun r hrr => hlen r (List.mem_cons_of_mem _ hrr)
    have hassoc : buf ++ tr :: trs = (buf ++ [tr]) ++ trs := by simp
    by_cases hfull : batch ≤ (buf ++ [tr]).length
    · have hexact : (buf ++ [tr]).length = batch := by
        simp only [List.length_append, List.length_cons, List.length_nil] at hfull ⊢
        omega
      rw [hassoc, chunkList_cons_exact hb hexact] at hk ⊢
      cases k with
      | zero =>
        rw [parseLoop_cons_flush_fail (hc ci) hlen1 hr hfull (by simpa using hfail)]
        refine ⟨rfl, Or.inl ⟨line + 1, rfl⟩, rfl, rfl⟩
      | succ k' =>
        have hi0 : insertOk ii = true := by simpa using hj 0 (by omega)
        rw [parseLoop_cons_flush_ok (hc ci) hlen1 hr hfull hi0]
        have hrec := ih trs [] (total + 1) (line + 1) (ci + 1) (ii + 1) k' hrest hlenr
          (by simpa using hb)
          (fun j hjk => by
            have := hj (j + 1) (by omega)
            rw [show ii + 1 + j = ii + (j + 1) by omega]
            exact this)
          (by rw [show ii + 1 + k' = ii + (k' + 1) by omega]; exact hfail)
          (by
            simp only [List.nil_append]
            simpa using hk)
        simp only [List.nil_append] at hrec
        obtain ⟨hz, herr, hbatches, hlast⟩ := hrec
        have hne : (parseLoop cancel insertOk batch rest [] (total + 1) (line + 1)
            (ci + 1) (ii + 1)).1 ≠ [] := by
          intro h0
          rw [h0] at hlast
          exact Option.noConfusion hlast
        refine ⟨hz, herr, ?_, ?_⟩
        · rw [insertBatches_check, insertBatches_read, insertBatches_insert, hbatches]
          rfl
        · obtain ⟨ev, evs, hevs⟩ := List.exists_cons_of_ne_nil hne
          rw [hevs] at hlast ⊢
          simp only [List.getLast?_cons_cons, List.getD_cons_succ]
          exact hlast
    · rw [parseLoop_cons_step (hc ci) hlen1 hr hfull]
      rw [hassoc] at hk ⊢
      have hrec := ih trs (buf ++ [tr]) (total + 1) (line + 1) (ci + 1) ii k hrest hlenr
        (by simp only [List.length_append, List.length_cons, List.length_nil] at hfull ⊢
            omega)
        hj hfail hk
      obtain ⟨hz, herr, hbatches, hlast⟩ := hrec
      have hne : (parseLoop cancel insertOk batch rest (buf ++ [tr]) (total + 1)
          (line + 1) (ci + 1) ii).1 ≠ [] := by
        intro h0
        rw [h0] at hlast
        exact Option.noConfusion hlast
      refine ⟨hz, herr, ?_, ?_⟩
      · rw [insertBatches_check, insertBatches_read, hbatches]
      · obtain ⟨ev, evs, hevs⟩ := List.exists_cons_of_ne_nil hne
        rw [hevs] at hlast ⊢
        simp only [List.getLast?_cons_cons]
        exact hlast

theorem mapM_length_ok :
    ∀ {rows : List (List String)} {trades : List Trade},
      rows.mapM recordToTrade = .ok trades → trades.length = rows.length := by
  intro rows
  induction rows with
  | nil => intro trades h; rw [mapM_nil_ok h]; rfl
  | cons rec rest ih =>
    intro trades h
    obtain ⟨tr, trs, _, hrest, htr⟩ := mapM_cons_ok h
    subst htr
    simp [ih hrest]

/-- C7: a successful parse of r valid rows with batch size b ≥ 1 makes
exactly ceiling(r/b) insert calls, all of size b except possibly the last,
whose concatenation is the parsed rows in order, and returns r; and when the
k-th insert call fails, the parse stops with that flush error as its last
event, after exactly k+1 insert calls. -/
theorem C7_batching :
    (∀ (cancel insertOk : Nat → Bool) (batch : Nat) (header : List String)
        (rows : List (List String)) (trades : List Trade),
        1 ≤ batch → header.length = 11 →
        firstBadCol header expectedHeaders 0 = none →
        rows.mapM recordToTrade = .ok trades →
        (∀ r ∈ rows, r.length = 11) →
        (∀ i, cancel i = false) → (∀ i, insertOk i = true) →
        (parseFile cancel insertOk (header :: rows) batch).2 = (rows.length, none) ∧
          insertBatches (parseFile cancel insertOk (header :: rows) batch).1 =
            chunkList batch trades ∧
          (insertBatches (parseFile cancel insertOk (header :: rows) batch).1).length =
            (rows.length + batch - 1) / batch ∧
          (∀ c ∈ (insertBatches
              (parseFile cancel insertOk (header :: rows) batch).1).dropLast,
            c.length = batch) ∧
          (insertBatches
              (parseFile cancel insertOk (header :: rows) batch).1).flatten = trades) ∧
    (∀ (cancel insertOk : Nat → Bool) (batch : Nat) (header : List String)
        (rows : List (List String)) (trades : List Trade) (k : Nat),
        1 ≤ batch → header.length = 11 →
        firstBadCol header expectedHeaders 0 = none →
        rows.mapM recordToTrade = .ok trades →
        (∀ r ∈ rows, r.length = 11) →
        (∀ i, cancel i = false) →
        (∀ j, j < k → insertOk j = true) → insertOk k = false →
        k < (chunkList batch trades).length →
        (parseFile cancel insertOk (header :: rows) batch).2.1 = 0 ∧
          ((∃ l, (parseFile cancel insertOk (header :: rows) batch).2.2 =
              some (.flushBatch l)) ∨
            (parseFile cancel insertOk (header :: rows) batch).2.2 =
              some .finalFlush) ∧
          insertBatches (parseFile cancel insertOk (header :: rows) batch).1 =
            (chunkList batch trades).take (k + 1) ∧
          (parseFile cancel insertOk (header :: rows) batch).1.getLast? =
            some (.insertCall ((chunkList batch trades).getD k []) false)) := by
  constructor
  · intro cancel insertOk batch header rows trades hb hlen hhdr hmap hrl hc hi
    have hopen : parseFile cancel insertOk (header :: rows) batch =
        parseLoop cancel insertOk batch rows [] 0 1 0 0 := by
      simp only [parseFile]
      rw [if_neg (show ¬ header.length ≠ 11 by omega), hhdr]
    rw [hopen]
    have hs := parseLoop_success cancel insertOk batch hc hi hb rows trades [] 0 1 0 0
      hmap hrl (by simpa using hb)
    rw [List.nil_append] at hs
    have hlen2 := mapM_length_ok hmap
    refine ⟨by rw [hs.1]; simp, hs.2, ?_, ?_, ?_⟩
    · rw [hs.2, chunkList_count hb, hlen2]
    · rw [hs.2]
      exact (chunkList_sizes hb trades).1
    · rw [hs.2]
      exact chunkList_join batch trades
  · intro cancel insertOk batch header rows trades k hb hlen hhdr hmap hrl hc hj hf hk
    have hopen : parseFile cancel insertOk (header :: rows) batch =
        parseLoop cancel insertOk batch rows [] 0 1 0 0 := by
      simp only [parseFile]
      rw [if_neg (show ¬ header.length ≠ 11 by omega), hhdr]
    rw [hopen]
    have hs := parseLoop_insert_fails cancel insertOk batch hc hb rows trades [] 0 1 0 0 k
      hmap hrl (by simpa using hb) (fun j hjk => by simpa using hj j hjk)
      (by simpa using hf) (by simpa using hk)
    rw [List.nil_append] at hs
    exact ⟨hs.1, hs.2.1, hs.2.2.1, hs.2.2.2⟩

/-- Witness for C7: five valid rows at batch size 2 (so batches of 2, 2, 1),
and a failing second insert call with four rows at batch size 2. -/
theorem C7_batching_witness :
    ((parseFile (fun _ => false) (fun _ => true)
        (expectedHeaders :: [wRow, wRow, wRow, wRow, wRow]) 2).2 = (5, none) ∧
      insertBatches (parseFile (fun _ => false) (fun _ => true)
          (expectedHeaders :: [wRow, wRow, wRow, wRow, wRow]) 2).1 =
        chunkList 2 [wTrade, wTrade, wTrade, wTrade, wTrade] ∧
      (insertBatches (parseFile (fun _ => false) (fun _ => true)
          (expectedHeaders :: [wRow, wRow, wRow, wRow, wRow]) 2).1).length =
        (5 + 2 - 1) / 2 ∧
      (∀ c ∈ (insertBatches (parseFile (fun _ => false) (fun _ => true)
          (expectedHeaders :: [wRow, wRow, wRow, wRow, wRow]) 2).1).dropLast,
        c.length = 2) ∧
      (insertBatches (parseFile (fun _ => false) (fun _ => true)
          (expectedHeaders :: [wRow, wRow, wRow, wRow, wRow]) 2).1).flatten =
        [wTrade, wTrade, wTrade, wTrade, wTrade]) ∧
    (parseFile (fun _ => false) (fun j => decide (j < 1))
        (expectedHeaders :: [wRow, wRow, wRow, wRow]) 2).2.1 = 0 := by
  constructor
  · exact C7_batching.1 (fun _ => false) (fun _ => true) 2 expectedHeaders
      [wRow, wRow, wRow, wRow, wRow] [wTrade, wTrade, wTrade, wTrade, wTrade]
      (by norm_num) (by decide) (by decide) (by decide)
      (by intro r hr; fin_cases hr <;> rfl) (fun _ => rfl) (fun _ => rfl)
  · exact (C7_batching.2 (fun _ => false) (fun j => decide (j < 1)) 2 expectedHeaders
      [wRow, wRow, wRow, wRow] [wTrade, wTrade, wTrade, wTrade] 1
      (by norm_num) (by decide) (by decide) (by decide)
      (by intro r hr; fin_cases hr <;> rfl) (fun _ => rfl)
      (by intro j hj; have : j = 0 := by omega
          subst this; rfl)
      (by rfl)
      (by rw [chunkList_count (by norm_num)]; simp)).1

theorem range_bind_succ (c line : Nat) :
    ((List.range (c + 1)).flatMap fun i =>
        [PEvent.check false, PEvent.readRow (line + 1 + i)]) =
      PEvent.check false :: PEvent.readRow (line + 1) ::
        ((List.range c).flatMap fun i =>
          [PEvent.check false, PEvent.readRow (line + 2 + i)]) := by
  rw [List.range_succ_eq_map]
  rw [List.flatMap_cons]
  rw [List.flatMap_map]
  simp only [List.cons_append, List.nil_append, Nat.add_zero]
  congr 1
  congr 1
  congr 1
  funext a
  have e : line + 1 + a.succ = line + 2 + a := by omega
  rw [e]

/-- A run over valid rows with a working repository whose shared signal
becomes set at the c-th per-row check: the loop stops there with the
cancellation error, its trace shows exactly one check before each of the c
rows it read plus the final (observed) check as the very last event, and the
rows still sitting in the buffer at that moment were never flushed — only
whole batches among the first c rows were inserted. -/
theorem parseLoop_canceled (cancel insertOk : Nat → Bool) (batch : Nat)
    (hb : 1 ≤ batch) (hi : ∀ i, insertOk i = true) :
    ∀ (c : Nat) (rows : List (List String)) (trades buf : List Trade)
      (total line ci ii : Nat),
      rows.mapM recordToTrade = .ok trades →
      (∀ r ∈ rows, r.length = 11) →
      buf.length < batch →
      (∀ j, j < c → cancel (ci + j) = false) →
      cancel (ci + c) = true →
      c ≤ rows.length →
      (parseLoop cancel insertOk batch rows buf total line ci ii).2 =
          (0, some .canceled) ∧
        (parseLoop cancel insertOk batch rows buf total line ci ii).1.filter
            isCheckOrRead =
          ((List.range c).flatMap fun i =>
            [PEvent.check false, PEvent.readRow (line + 1 + i)]) ++
            [PEvent.check true] ∧
        (insertBatches
            (parseLoop cancel insertOk batch rows buf total line ci ii).1).flatten =
          (buf ++ trades).take (batch * ((buf.length + c) / batch)) ∧
        (parseLoop cancel insertOk batch rows buf total line ci ii).1.getLast? =
          some (.check true) := by
  intro c
  induction c with
  | zero =>
    intro rows trades buf total line ci ii hmap hlen hbuf hj hcan hcr
    rw [parseLoop_cancel (by simpa using hcan)]
    refine ⟨rfl, by simp [isCheckOrRead], ?_, rfl⟩
    rw [Nat.add_zero, Nat.div_eq_of_lt hbuf, Nat.mul_zero, List.take_zero]
    rfl
  | succ c' ih =>
    intro rows trades buf total line ci ii hmap hlen hbuf hj hcan hcr
    cases rows with
    | nil => simp at hcr
    | cons rec rest =>
      obtain ⟨tr, trs, hr, hrest, htr⟩ := mapM_cons_ok hmap
      subst htr
      have hc0 : cancel ci = false := by simpa using hj 0 (by omega)
      have hlen1 : rec.length = 11 := hlen rec (List.mem_cons_self _ _)
      have hlenr : ∀ r ∈ rest, r.length = 11 :=
        fun r hrr => hlen r (List.mem_cons_of_mem _ hrr)
      have hjr : ∀ j, j < c' → cancel (ci + 1 + j) = false := fun j hjk => by
        have := hj (j + 1) (by omega)
        rw [show ci + 1 + j = ci + (j + 1) by omega]
        exact this
      have hcanr : cancel (ci + 1 + c') = true := by
        rw [show ci + 1 + c' = ci + (c' + 1) by omega]
        exact hcan
      by_cases hfull : batch ≤ (buf ++ [tr]).length
      · have hexact : (buf ++ [tr]).length = batch := by
          simp only [List.length_append, List.length_cons, List.length_nil] at hfull ⊢
          omega
        rw [parseLoop_cons_flush_ok hc0 hlen1 hr hfull (hi ii)]
        have hrec := ih rest trs [] (total + 1) (line + 1) (ci + 1) (ii + 1) hrest hlenr
          (by simpa using hb) hjr hcanr (by simpa using hcr)
        obtain ⟨hz, hfil, hflat, hlast⟩ := hrec
        have hne : (parseLoop cancel insertOk batch rest [] (total + 1) (line + 1)
            (ci + 1) (ii + 1)).1 ≠ [] := by
          intro h0
          rw [h0] at hlast
          exact Option.noConfusion hlast
        refine ⟨hz, ?_, ?_, ?_⟩
        · simp only [List.filter, isCheckOrRead, range_bind_succ]
          rw [hfil]
          rfl
        · rw [insertBatches_check, insertBatches_read, insertBatches_insert]
          simp only [List.flatten_cons]
          rw [hflat]
          simp only [List.nil_append, List.length_nil, Nat.zero_add]
          have harith : buf.length + (c' + 1) = c' + batch := by
            simp only [List.length_append, List.length_cons, List.length_nil] at hexact
            omega
          rw [harith, Nat.add_div_right _ (by omega : 0 < batch)]
          rw [Nat.mul_succ]
          rw [show batch * (c' / batch) + batch = batch + batch * (c' / batch) by omega]
          rw [show buf ++ tr :: trs = (buf ++ [tr]) ++ trs by simp]
          rw [← hexact]
          rw [List.take_append]
        · obtain ⟨ev, evs, hevs⟩ := List.exists_cons_of_ne_nil hne
          rw [hevs] at hlast ⊢
          simp only [List.getLast?_cons_cons]
          exact hlast
      · rw [parseLoop_cons_step hc0 hlen1 hr hfull]
        have hrec := ih rest trs (buf ++ [tr]) (total + 1) (line + 1) (ci + 1) ii
          hrest hlenr
          (by simp only [List.length_append, List.length_cons, List.length_nil]
                at hfull ⊢
              omega)
          hjr hcanr (by simpa using hcr)
        obtain ⟨hz, hfil, hflat, hlast⟩ := hrec
        have hne : (parseLoop cancel insertOk batch rest (buf ++ [tr]) (total + 1)
            (line + 1) (ci + 1) ii).1 ≠ [] := by
          intro h0
          rw [h0] at hlast
          exact Option.noConfusion hlast
        refine ⟨hz, ?_, ?_, ?_⟩
        · simp only [List.filter, isCheckOrRead, range_bind_succ]
          rw [hfil]
          rfl
        · rw [insertBatches_check, insertBatches_read, hflat]
          simp only [List.length_append, List.length_cons, List.length_nil,
            List.append_assoc, List.cons_append, List.nil_append]
          rw [show buf.length + 1 + c' = buf.length + (c' + 1) by omega]
        · obtain ⟨ev, evs, hevs⟩ := List.exists_cons_of_ne_nil hne
          rw [hevs] at hlast ⊢
          simp only [List.getLast?_cons_cons]
          exact hlast

/-- C8: the parser checks the cancellation signal exactly once per data row,
before reading that row; when the signal first reads true at the c-th check,
Parse returns a row count of 0 with the cancellation error, the trace
restricted to checks and reads is exactly c (check, read) pairs followed by
the observing check as the very last event of the whole trace, and the
concatenation of all insert payloads is exactly the whole batches among the
first c parsed rows — rows still buffered at the cancellation point are
never flushed. -/
theorem C8_cancellation (cancel insertOk : Nat → Bool) (batch : Nat)
    (header : List String) (rows : List (List String)) (trades : List Trade)
    (c : Nat) (hb : 1 ≤ batch) (hh : header.length = 11)
    (hhdr : firstBadCol header expectedHeaders 0 = none)
    (hmap : rows.mapM recordToTrade = .ok trades)
    (hrl : ∀ r ∈ rows, r.length = 11)
    (hi : ∀ i, insertOk i = true)
    (hj : ∀ j, j < c → cancel j = false)
    (hcan : cancel c = true)
    (hcr : c ≤ rows.length) :
    (parseFile cancel insertOk (header :: rows) batch).2 =
        (0, some .canceled) ∧
      (parseFile cancel insertOk (header :: rows) batch).1.filter
          isCheckOrRead =
        ((List.range c).flatMap fun i =>
          [PEvent.check false, PEvent.readRow (2 + i)]) ++ [PEvent.check true] ∧
      (insertBatches
          (parseFile cancel insertOk (header :: rows) batch).1).flatten =
        trades.take (batch * (c / batch)) ∧
      (parseFile cancel insertOk (header :: rows) batch).1.getLast? =
        some (.check true) := by
  have hopen : parseFile cancel insertOk (header :: rows) batch =
      parseLoop cancel insertOk batch rows [] 0 1 0 0 := by
    simp only [parseFile]
    rw [if_neg (show ¬ header.length ≠ 11 by omega), hhdr]
  rw [hopen]
  have h := parseLoop_canceled cancel insertOk batch hb hi c rows trades [] 0 1 0 0
    hmap hrl (by simpa using hb)
    (by intro j hjc; rw [Nat.zero_add]; exact hj j hjc)
    (by rw [Nat.zero_add]; exact hcan) hcr
  obtain ⟨h1, h2, h3, h4⟩ := h
  refine ⟨h1, ?_, ?_, h4⟩
  · rw [h2]
  · rw [h3]
    simp

/-- Witness for C8: three valid rows at batch size 2 with the signal set
from the fourth check on — the first two rows are flushed as a full batch,
the third stays buffered and is never inserted. -/
theorem C8_cancellation_witness :
    (parseFile (fun i => decide (3 ≤ i)) (fun _ => true)
        (expectedHeaders :: [wRow, wRow, wRow]) 2).2 =
        (0, some .canceled) ∧
      (parseFile (fun i => decide (3 ≤ i)) (fun _ => true)
          (expectedHeaders :: [wRow, wRow, wRow]) 2).1.filter isCheckOrRead =
        ((List.range 3).flatMap fun i =>
          [PEvent.check false, PEvent.readRow (2 + i)]) ++ [PEvent.check true] ∧
      (insertBatches (parseFile (fun i => decide (3 ≤ i)) (fun _ => true)
          (expectedHeaders :: [wRow, wRow, wRow]) 2).1).flatten =
        [wTrade, wTrade, wTrade].take (2 * (3 / 2)) ∧
      (parseFile (fun i => decide (3 ≤ i)) (fun _ => true)
          (expectedHeaders :: [wRow, wRow, wRow]) 2).1.getLast? =
        some (.check true) :=
  C8_cancellation (fun i => decide (3 ≤ i)) (fun _ => true) 2 expectedHeaders
    [wRow, wRow, wRow] [wTrade, wTrade, wTrade] 3
    (by norm_num) (by decide) (by decide) (by decide)
    (by intro r hr; fin_cases hr <;> rfl) (fun _ => rfl)
    (by intro j hj; interval_cases j <;> rfl)
    (by rfl) (by decide)

/-! ## Filename rendering and re-parsing (`d.Format("02-01-2006")` vs
`time.Parse(fileDateLayout, datePart)`) -/

theorem digitChar_digit {v : Int} (h0 : 0 ≤ v) (h9 : v ≤ 9) :
    (digitChar v).isDigit = true ∧ digitVal (digitChar v) = v := by
  interval_cases v <;> exact ⟨by decide, by decide⟩

theorem pad2_val {n : Int} (h0 : 0 ≤ n) (h99 : n ≤ 99) :
    (pad2 n).all Char.isDigit = true ∧ digitsToInt (pad2 n) = n := by
  have h1 := digitChar_digit (v := n / 10 % 10) (by omega) (by omega)
  have h2 := digitChar_digit (v := n % 10) (by omega) (by omega)
  constructor
  · simp only [pad2, List.all_cons, List.all_nil, Bool.and_true, h1.1, h2.1]
  · simp only [pad2, digitsToInt, List.foldl, h1.2, h2.2]
    omega

theorem pad4_val {n : Int} (h0 : 0 ≤ n) (h9999 : n ≤ 9999) :
    (pad4 n).all Char.isDigit = true ∧ digitsToInt (pad4 n) = n := by
  have h1 := digitChar_digit (v := n / 1000 % 10) (by omega) (by omega)
  have h2 := digitChar_digit (v := n / 100 % 10) (by omega) (by omega)
  have h3 := digitChar_digit (v := n / 10 % 10) (by omega) (by omega)
  have h4 := digitChar_digit (v := n % 10) (by omega) (by omega)
  constructor
  · simp only [pad4, List.all_cons, List.all_nil, Bool.and_true, h1.1, h2.1, h3.1, h4.1]
  · simp only [pad4, digitsToInt, List.foldl, h1.2, h2.2, h3.2, h4.2]
    omega

theorem goDaysIn_le (y m : Int) : goDaysIn y m ≤ 31 := by
  simp only [goDaysIn]
  split_ifs <;> omega

/-- Stripping the fixed suffix from a rendered filename leaves the date
part. -/
theorem parseFileNameDate_pad (D M Y : Int) :
    parseFileNameDate (String.mk (pad2 D ++ '-' :: pad2 M ++ '-' :: pad4 Y
        ++ fileSuffixChars)) =
      parseDateBR (String.mk (pad2 D ++ '-' :: pad2 M ++ '-' :: pad4 Y)) := rfl

/-- `parseDateBR` on a rendered `DD-MM-YYYY` string, reduced to its guards. -/
theorem parseDateBR_pad (D M Y : Int) :
    parseDateBR (String.mk (pad2 D ++ '-' :: pad2 M ++ '-' :: pad4 Y)) =
      (if ((pad2 D ++ (pad2 M ++ pad4 Y)).all Char.isDigit) then
        if 1 ≤ digitsToInt (pad2 M) ∧ digitsToInt (pad2 M) ≤ 12 ∧
            1 ≤ digitsToInt (pad2 D) ∧
            digitsToInt (pad2 D) ≤
              goDaysIn (digitsToInt (pad4 Y)) (digitsToInt (pad2 M)) then
          some (daysFromCivil (digitsToInt (pad4 Y)) (digitsToInt (pad2 M))
            (digitsToInt (pad2 D)))
        else none
      else none) := rfl

/-- Rendering a day ordinal with `Format("02-01-2006") + fileSuffix` and
parsing it back as the worker does recovers the same day, whenever the year
fits the four-digit layout. -/
theorem parseFileNameDate_fileNameOf {z : Int} (h0 : 0 ≤ yearOf z)
    (h1 : yearOf z ≤ 9999) : parseFileNameDate (fileNameOf z) = some z := by
  have hm := monthOf_spec z
  have hd := dayOf_spec z
  have hg : goDaysIn (yearOf z) (monthOf z) ≤ 31 := goDaysIn_le _ _
  have hD := pad2_val (n := dayOf z) (by omega) (by omega)
  have hM := pad2_val (n := monthOf z) (by omega) (by omega)
  have hY := pad4_val (n := yearOf z) h0 h1
  show parseFileNameDate (String.mk (pad2 (dayOf z) ++ '-' :: pad2 (monthOf z)
      ++ '-' :: pad4 (yearOf z) ++ fileSuffixChars)) = some z
  rw [parseFileNameDate_pad, parseDateBR_pad]
  rw [if_pos (by simp only [List.all_append, hD.1, hM.1, hY.1, Bool.and_true])]
  rw [hD.2, hM.2, hY.2]
  rw [if_pos ⟨hm.1, hm.2.1, hd.1, hd.2⟩]
  rw [daysFromCivil_civilFromDays]

/-! ## The orchestrator claims -/

/-- Skip path of a worker: date already ingested and `force` unset — only
the ledger query happens. -/
theorem processFile_skip {oracle : RepoOracle} {cancel : Nat → Bool}
    {name : String} {content : List (List String)} {d : Int}
    (hpd : parseFileNameDate name = some d)
    (hr : oracle.hasResult d = .ok true) :
    processFile oracle cancel false name content = ([.hasCheck d], none) := by
  simp [processFile, hpd, hr]

/-- A sequence of workers that all skip produces exactly one ledger query
per business day and no error. -/
theorem runWorkers_skip {oracle : RepoOracle} {cancel : Nat → Bool}
    {dirListing : String → Option (List (List String))} (ds : List Int)
    (hy : ∀ d ∈ ds, 0 ≤ yearOf d ∧ yearOf d ≤ 9999)
    (hr : ∀ d ∈ ds, oracle.hasResult d = .ok true) :
    runWorkers oracle cancel false dirListing (ds.map fileNameOf) =
      (ds.map WEvent.hasCheck, none) := by
  induction ds with
  | nil => rfl
  | cons d rest ih =>
    have hd := hy d (List.mem_cons_self _ _)
    have hskip := @processFile_skip oracle cancel (fileNameOf d)
      ((dirListing (fileNameOf d)).getD []) d
      (parseFileNameDate_fileNameOf hd.1 hd.2) (hr d (List.mem_cons_self _ _))
    have ihr := ih (fun x hx => hy x (List.mem_cons_of_mem _ hx))
      (fun x hx => hr x (List.mem_cons_of_mem _ hx))
    simp only [List.map_cons, runWorkers, hskip, ihr, List.singleton_append]

/-- C2: a worker whose business day the ledger reports as already ingested
returns success, with `force` unset, after only the ledger query — no file
read, no insert, delete or upsert; and running the whole directory pass over
days that are all in the ledger (with every expected file present) performs
exactly one ledger query per day and nothing else, with no error. -/
theorem C2_skip_and_idempotence :
    (∀ (oracle : RepoOracle) (cancel : Nat → Bool) (name : String)
        (content : List (List String)) (d : Int),
        parseFileNameDate name = some d →
        oracle.hasResult d = .ok true →
        processFile oracle cancel false name content =
          ([.hasCheck d], none)) ∧
    (∀ (oracle : RepoOracle) (cancel : Nat → Bool)
        (dirListing : String → Option (List (List String)))
        (now nDays parallel : Int),
        (∀ d ∈ lastNBusinessDays (clampDays nDays).toNat now,
          0 ≤ yearOf d ∧ yearOf d ≤ 9999) →
        (∀ d ∈ lastNBusinessDays (clampDays nDays).toNat now,
          oracle.hasResult d = .ok true) →
        (∀ d ∈ lastNBusinessDays (clampDays nDays).toNat now,
          (dirListing (fileNameOf d)).isSome = true) →
        processDirectory oracle cancel dirListing now nDays parallel false =
          ((lastNBusinessDays (clampDays nDays).toNat now).map WEvent.hasCheck,
            none)) := by
  constructor
  · intro oracle cancel name content d hpd hr
    exact processFile_skip hpd hr
  · intro oracle cancel dirListing now nDays parallel hy hr hp
    have hmiss : ((lastNBusinessDays (clampDays nDays).toNat now).map
        fileNameOf).filter (fun f => (dirListing f).isNone) = [] := by
      rw [List.filter_eq_nil_iff]
      intro f hf
      obtain ⟨d, hd, rfl⟩ := List.mem_map.mp hf
      have := hp d hd
      simp only [Option.isNone]
      obtain ⟨v, hv⟩ := Option.isSome_iff_exists.mp this
      rw [hv]
      simp
    simp only [processDirectory, hmiss]
    rw [if_neg (by simp)]
    exact runWorkers_skip _ hy hr

/-- Witness for C2: a ledger that already has every day, a worker on the
2025-09-11 file, and a directory pass over the three business days before
2025-09-20. -/
theorem C2_skip_and_idempotence_witness :
    processFile ⟨fun _ => .ok true, fun _ => true, fun _ _ => true, fun _ => true⟩
        (fun _ => false) false "11-09-2025_NEGOCIOSAVISTA.txt" [] =
      ([.hasCheck 20342], none) ∧
    processDirectory
        ⟨fun _ => .ok true, fun _ => true, fun _ _ => true, fun _ => true⟩
        (fun _ => false) (fun _ => some []) 20351 3 4 false =
      ((lastNBusinessDays (clampDays 3).toNat 20351).map WEvent.hasCheck,
        none) :=
  ⟨C2_skip_and_idempotence.1 _ _ _ _ 20342 (by decide) rfl,
   C2_skip_and_idempotence.2 _ _ _ 20351 3 4 (by decide) (fun _ _ => rfl)
     (fun _ _ => rfl)⟩

/-- C3: on an already-ingested day with `force` set, the worker issues the
delete as its second action, before the file is even opened — so before any
insert; if the delete fails, the worker stops right there with the delete
error, having read and parsed nothing; and when the delete succeeds and the
file parses cleanly, every parsed trade is inserted and the freshly parsed
row count is what `UpsertIngestionLog` receives for that day. -/
theorem C3_force_delete_then_reinsert :
    (∀ (oracle : RepoOracle) (cancel : Nat → Bool) (name : String)
        (content : List (List String)) (d : Int),
        parseFileNameDate name = some d →
        oracle.hasResult d = .ok true →
        oracle.deleteOk d = false →
        processFile oracle cancel true name content =
          ([.hasCheck d, .deleteCall d], some (.deleteFailed name))) ∧
    (∀ (oracle : RepoOracle) (cancel : Nat → Bool) (name : String)
        (header : List String) (rows : List (List String))
        (trades : List Trade) (d : Int),
        parseFileNameDate name = some d →
        oracle.hasResult d = .ok true →
        oracle.deleteOk d = true →
        oracle.upsertOk d = true →
        header.length = 11 →
        firstBadCol header expectedHeaders 0 = none →
        rows.mapM recordToTrade = .ok trades →
        (∀ r ∈ rows, r.length = 11) →
        (∀ i, cancel i = false) →
        (∀ i, oracle.insertOk name i = true) →
        processFile oracle cancel true name (header :: rows) =
          (.hasCheck d :: .deleteCall d :: .readFile name ::
            (parseFile cancel (oracle.insertOk name) (header :: rows)
                defaultBatchSize).1.map WEvent.parse ++
              [.upsert d name rows.length], none) ∧
          (insertBatches (parseFile cancel (oracle.insertOk name)
              (header :: rows) defaultBatchSize).1).flatten = trades) := by
  constructor
  · intro oracle cancel name content d hpd hr hdel
    simp [processFile, hpd, hr, hdel]
  · intro oracle cancel name header rows trades d hpd hr hdel hup hh hhdr hmap
      hrl hc hi
    have hopen : parseFile cancel (oracle.insertOk name) (header :: rows)
        defaultBatchSize =
        parseLoop cancel (oracle.insertOk name) defaultBatchSize rows [] 0 1 0 0 := by
      simp only [parseFile]
      rw [if_neg (show ¬ header.length ≠ 11 by omega), hhdr]
    have hs := parseLoop_success cancel (oracle.insertOk name) defaultBatchSize
      hc hi (by norm_num [defaultBatchSize]) rows trades [] 0 1 0 0 hmap hrl
      (by norm_num [defaultBatchSize])
    rw [List.nil_append] at hs
    have hpr2 : (parseFile cancel (oracle.insertOk name) (header :: rows)
        defaultBatchSize).2 = (rows.length, none) := by
      rw [hopen, hs.1]
      simp
    constructor
    · simp only [processFile, hpd, hr, hdel, hup, hpr2]
      simp
    · rw [hopen, hs.2]
      exact chunkList_join defaultBatchSize trades

/-- Witness for C3: the 2025-09-11 file on an already-ingested day, first
with a failing delete, then with a working repository and one valid row. -/
theorem C3_force_delete_then_reinsert_witness :
    processFile ⟨fun _ => .ok true, fun _ => false, fun _ _ => true, fun _ => true⟩
        (fun _ => false) true "11-09-2025_NEGOCIOSAVISTA.txt" [] =
      ([.hasCheck 20342, .deleteCall 20342],
        some (.deleteFailed "11-09-2025_NEGOCIOSAVISTA.txt")) ∧
    (processFile ⟨fun _ => .ok true, fun _ => true, fun _ _ => true, fun _ => true⟩
        (fun _ => false) true "11-09-2025_NEGOCIOSAVISTA.txt"
        (expectedHeaders :: [wRow]) =
      (.hasCheck 20342 :: .deleteCall 20342 ::
          .readFile "11-09-2025_NEGOCIOSAVISTA.txt" ::
        (parseFile (fun _ => false) (fun _ => true) (expectedHeaders :: [wRow])
            defaultBatchSize).1.map WEvent.parse ++
          [.upsert 20342 "11-09-2025_NEGOCIOSAVISTA.txt" 1], none) ∧
      (insertBatches (parseFile (fun _ => false) (fun _ => true)
          (expectedHeaders :: [wRow]) defaultBatchSize).1).flatten = [wTrade]) :=
  ⟨C3_force_delete_then_reinsert.1 _ _ _ _ 20342 (by decide) rfl rfl,
   C3_force_delete_then_reinsert.2 _ _ _ expectedHeaders [wRow] [wTrade] 20342
     (by decide) rfl rfl rfl (by decide) (by decide) (by decide)
     (by intro r hr; fin_cases hr; rfl) (fun _ => rfl) (fun _ => rfl)⟩

/-- C4: when any expected business-day file is absent from the directory,
`ProcessDirectory` fails up front with an error carrying exactly the list of
missing filenames, and its trace is empty — no worker ran and no repository
call (ledger query, insert, delete or upsert) was made. -/
theorem C4_missing_files (oracle : RepoOracle) (cancel : Nat → Bool)
    (dirListing : String → Option (List (List String)))
    (now nDays parallel : Int) (force : Bool)
    (h : ((lastNBusinessDays (clampDays nDays).toNat now).map fileNameOf).filter
        (fun f => (dirListing f).isNone) ≠ []) :
    processDirectory oracle cancel dirListing now nDays parallel force =
      ([], some (.missingFiles
        (((lastNBusinessDays (clampDays nDays).toNat now).map
          fileNameOf).filter (fun f => (dirListing f).isNone)))) := by
  simp only [processDirectory]
  rw [if_pos h]

/-- Witness for C4: an empty directory and a one-day window before
2025-09-20. -/
theorem C4_missing_files_witness :
    processDirectory
        ⟨fun _ => .ok true, fun _ => true, fun _ _ => true, fun _ => true⟩
        (fun _ => false) (fun _ => none) 20351 1 4 false =
      ([], some (.missingFiles
        (((lastNBusinessDays (clampDays 1).toNat 20351).map
          fileNameOf).filter (fun f => ((fun _ => none)
            f : Option (List (List String))).isNone)))) :=
  C4_missing_files _ _ _ 20351 1 4 false (by decide)

end B3
